import Mathlib

set_option maxHeartbeats 1000000

/-!
Verification development for the chunk-indexing and fragment-splitting core of
pangeo-forge-recipes.  The pattern addressing algebra is embedded directly from
`pangeo_forge_recipes/patterns.py`.  The chunk-grid component
(`chunk_grid.py`) and the fragment splitter (`rechunking.py`) are not part of
the source tree (only their tests are), so they are modelled from the
specification, with every behaviour that the repository tests pin down kept
faithful to those tests.
-/

namespace PangeoForge

/-- Modelled from the spec: a `ChunkAxis` is an ordered sequence of chunk
lengths along one dimension (`chunk_grid.py` is absent from the source tree;
only `tests/test_chunk_grid.py` exercises it).  The invariant that every chunk
length is positive is carried as a hypothesis of the theorems. -/
structure ChunkAxis where
  chunks : List Nat
  deriving DecidableEq, Repr

namespace ChunkAxis

/-- Modelled from the spec: the axis length is the sum of its chunk lengths. -/
def len (ax : ChunkAxis) : Nat := ax.chunks.sum

/-- Modelled from the spec: the number of chunks. -/
def nchunks (ax : ChunkAxis) : Nat := ax.chunks.length

/-- First array position of chunk `c` (sum of the lengths before it). -/
def chunkStart (ax : ChunkAxis) (c : Nat) : Nat := (ax.chunks.take c).sum

/-- One past the last array position of chunk `c`. -/
def chunkStop (ax : ChunkAxis) (c : Nat) : Nat := (ax.chunks.take (c + 1)).sum

/-- Scan for the chunk ordinal containing array position `i`. -/
def searchChunk : List Nat → Nat → Option Nat
  | [], _ => none
  | c :: cs, i => if i < c then some 0 else (searchChunk cs (i - c)).map (· + 1)

/-- Modelled from the spec: the chunk ordinal containing global array position
`i`; fails with an out-of-range error when `i < 0` or `i ≥ length`. -/
def array_index_to_chunk_index (ax : ChunkAxis) (i : Int) : Option Nat :=
  if i < 0 then none else searchChunk ax.chunks i.toNat

/-- Modelled from the spec: the minimal contiguous chunk-ordinal range
`[c0, c1)` whose union covers `[start, stop)`; fails with a range error on a
stride other than 1, on `start ≥ stop`, or on bounds outside `[0, length]`. -/
def array_slice_to_chunk_slice (ax : ChunkAxis) (start stop : Int)
    (step : Option Int) : Option (Nat × Nat) :=
  if (step = none ∨ step = some 1) ∧ 0 ≤ start ∧ start < stop ∧ stop ≤ (ax.len : Int) then
    match searchChunk ax.chunks start.toNat, searchChunk ax.chunks (stop.toNat - 1) with
    | some c0, some c1 => some (c0, c1 + 1)
    | _, _ => none
  else none

/-- Modelled from the spec: the `[start, stop)` array range spanned by chunk
`c`; fails on `c ≥ chunk_count`. -/
def chunk_index_to_array_slice (ax : ChunkAxis) (c : Nat) : Option (Nat × Nat) :=
  if c < ax.nchunks then some (ax.chunkStart c, ax.chunkStop c) else none

/-- Modelled from the spec, with the placement of the larger pieces corrected
to match the repository test `test_chunk_axis_subsets`: a chunk of length `L`
is divided into `factor` pieces, the first `factor - L % factor` of length
`L / factor` and the last `L % factor` of length `L / factor + 1`. -/
def subsetChunk (L factor : Nat) : List Nat :=
  List.replicate (factor - L % factor) (L / factor) ++
    List.replicate (L % factor) (L / factor + 1)

/-- The division rule exactly as the spec words it: the first `L % factor`
pieces get length `L / factor + 1`, the remaining ones length `L / factor`. -/
def subsetChunkSpecOrder (L factor : Nat) : List Nat :=
  List.replicate (L % factor) (L / factor + 1) ++
    List.replicate (factor - L % factor) (L / factor)

/-- Modelled from the spec: `subset` divides every chunk independently and in
order, concatenating the per-chunk divisions. -/
def subset (ax : ChunkAxis) (factor : Nat) : ChunkAxis :=
  ⟨(ax.chunks.map (fun L => subsetChunk L factor)).flatten⟩

/-- The whole-axis version of the spec's literal division rule. -/
def subsetSpecOrder (ax : ChunkAxis) (factor : Nat) : ChunkAxis :=
  ⟨(ax.chunks.map (fun L => subsetChunkSpecOrder L factor)).flatten⟩

end ChunkAxis

/-- Modelled from the spec: the chunk list of a uniform grid with chunk size
`cs` over total length `tl`: `tl / cs` chunks of size `cs` followed by a final
remainder chunk of size `tl % cs`, omitted when the remainder is zero. -/
def uniformChunks (cs tl : Nat) : List Nat :=
  List.replicate (tl / cs) cs ++ (if tl % cs = 0 then [] else [tl % cs])

section ChunkAxisLemmas

open ChunkAxis

theorem sum_take_mono (l : List Nat) :
    ∀ a b, a ≤ b → (l.take a).sum ≤ (l.take b).sum := by
  induction l with
  | nil => intro a b _; simp
  | cons x xs ih =>
    intro a b hab
    cases a with
    | zero => simp
    | succ a' =>
      cases b with
      | zero => omega
      | succ b' =>
        simp only [List.take_succ_cons, List.sum_cons]
        exact Nat.add_le_add_left (ih a' b' (Nat.succ_le_succ_iff.mp hab)) x

theorem searchChunk_spec (l : List Nat) :
    ∀ i, i < l.sum →
      ∃ c, searchChunk l i = some c ∧ c < l.length ∧
        (l.take c).sum ≤ i ∧ i < (l.take (c + 1)).sum := by
  induction l with
  | nil => intro i hi; simp at hi
  | cons x xs ih =>
    intro i hi
    by_cases hx : i < x
    · exact ⟨0, by simp [searchChunk, hx], by simp, by simp, by simpa using hx⟩
    · have hx' : x ≤ i := Nat.le_of_not_lt hx
      have hi' : i - x < xs.sum := by
        simp only [List.sum_cons] at hi; omega
      obtain ⟨c, hc, hclen, hlo, hhi⟩ := ih (i - x) hi'
      refine ⟨c + 1, ?_, by simpa using hclen, ?_, ?_⟩
      · simp [searchChunk, hx, hc]
      · simp only [List.take_succ_cons, List.sum_cons]; omega
      · simp only [List.take_succ_cons, List.sum_cons]; omega

theorem searchChunk_none (l : List Nat) :
    ∀ i, l.sum ≤ i → searchChunk l i = none := by
  induction l with
  | nil => intro i _; rfl
  | cons x xs ih =>
    intro i hi
    simp only [List.sum_cons] at hi
    have hx : ¬ i < x := by omega
    simp [searchChunk, hx, ih (i - x) (by omega)]

theorem containing_chunk_unique (l : List Nat) (i : Nat) (c c' : Nat)
    (h1 : (l.take c).sum ≤ i) (h2 : i < (l.take (c + 1)).sum)
    (h3 : (l.take c').sum ≤ i) (h4 : i < (l.take (c' + 1)).sum) : c = c' := by
  by_contra hne
  rcases Nat.lt_or_ge c c' with h | h
  · have := sum_take_mono l (c + 1) c' h
    omega
  · have hlt : c' < c := by omega
    have := sum_take_mono l (c' + 1) c hlt
    omega

theorem take_sum_uniform (cs tl : Nat) (hcs : 0 < cs) (k : Nat) :
    ((uniformChunks cs tl).take k).sum = min (k * cs) tl := by
  unfold uniformChunks
  rcases le_or_lt k (tl / cs) with hk | hk
  · rw [List.take_append_eq_append_take, List.length_replicate,
      Nat.sub_eq_zero_of_le hk, List.take_replicate, Nat.min_eq_left hk]
    have h1 : k * cs ≤ tl :=
      le_trans (Nat.mul_le_mul_right cs hk) (Nat.div_mul_le_self tl cs)
    simp [List.sum_replicate, smul_eq_mul, Nat.min_eq_left h1]
  · have hdm : cs * (tl / cs) + tl % cs = tl := Nat.div_add_mod tl cs
    have hmod : tl % cs < cs := Nat.mod_lt _ hcs
    have htl : tl ≤ k * cs := by
      have h1 : (tl / cs + 1) * cs ≤ k * cs := Nat.mul_le_mul_right cs hk
      have h2 : (tl / cs + 1) * cs = cs * (tl / cs) + cs := by ring
      omega
    rw [List.take_append_eq_append_take, List.length_replicate, List.take_replicate,
      Nat.min_eq_right (le_of_lt hk)]
    have hcomm : tl / cs * cs = cs * (tl / cs) := Nat.mul_comm _ _
    by_cases hz : tl % cs = 0
    · rw [if_pos hz]
      simp only [List.take_nil, List.append_nil, List.sum_replicate, smul_eq_mul,
        Nat.min_eq_right htl]
      omega
    · have hkq : 1 ≤ k - tl / cs := by omega
      rw [if_neg hz, List.take_of_length_le (by simpa using hkq)]
      simp only [List.sum_append, List.sum_replicate, smul_eq_mul, List.sum_cons,
        List.sum_nil, Nat.min_eq_right htl]
      omega

theorem sum_uniform (cs tl : Nat) (hcs : 0 < cs) : (uniformChunks cs tl).sum = tl := by
  have hlen : (uniformChunks cs tl).length ≤ tl / cs + 1 := by
    unfold uniformChunks
    rcases em (tl % cs = 0) with h | h <;> simp [h]
  have h := take_sum_uniform cs tl hcs (tl / cs + 1)
  rw [List.take_of_length_le hlen] at h
  have h1 : tl ≤ (tl / cs + 1) * cs := by
    have hdm : cs * (tl / cs) + tl % cs = tl := Nat.div_add_mod tl cs
    have hmod : tl % cs < cs := Nat.mod_lt _ hcs
    have h2 : (tl / cs + 1) * cs = cs * (tl / cs) + cs := by ring
    omega
  rw [h, Nat.min_eq_right h1]

theorem searchChunk_uniform (cs tl i : Nat) (hcs : 0 < cs) (hi : i < tl) :
    ChunkAxis.searchChunk (uniformChunks cs tl) i = some (i / cs) := by
  have hsum : (uniformChunks cs tl).sum = tl := sum_uniform cs tl hcs
  obtain ⟨c, hc, hclen, hlo, hhi⟩ := searchChunk_spec (uniformChunks cs tl) i (by omega)
  rw [take_sum_uniform cs tl hcs c] at hlo
  rw [take_sum_uniform cs tl hcs (c + 1)] at hhi
  have hA : c * cs ≤ i := by
    rcases le_or_lt (c * cs) tl with h | h
    · rwa [Nat.min_eq_left h] at hlo
    · rw [Nat.min_eq_right (le_of_lt h)] at hlo; omega
  have hB : i < (c + 1) * cs := lt_of_lt_of_le hhi (Nat.min_le_left _ _)
  have heq : i / cs = c := Nat.div_eq_of_lt_le hA hB
  rw [heq]
  exact hc

/-- For a positive chunk list, the errorless branch of
`array_slice_to_chunk_slice` always finds its two chunk ordinals. -/
theorem array_slice_valid_some (ax : ChunkAxis)
    (start stop : Int) (h0 : 0 ≤ start) (h1 : start < stop) (h2 : stop ≤ (ax.len : Int)) :
    ∃ c0 c1, ChunkAxis.searchChunk ax.chunks start.toNat = some c0 ∧
      ChunkAxis.searchChunk ax.chunks (stop.toNat - 1) = some c1 ∧
      (ax.chunks.take c0).sum ≤ start.toNat ∧ start.toNat < (ax.chunks.take (c0 + 1)).sum ∧
      (ax.chunks.take c1).sum ≤ stop.toNat - 1 ∧ stop.toNat - 1 < (ax.chunks.take (c1 + 1)).sum ∧
      c0 ≤ c1 ∧ c1 < ax.nchunks := by
  have hlen_eq : ax.len = ax.chunks.sum := rfl
  have hs : start.toNat < ax.chunks.sum := by omega
  have ht : stop.toNat - 1 < ax.chunks.sum := by omega
  obtain ⟨c0, hc0, hc0len, hc0lo, hc0hi⟩ := searchChunk_spec ax.chunks start.toNat hs
  obtain ⟨c1, hc1, hc1len, hc1lo, hc1hi⟩ := searchChunk_spec ax.chunks (stop.toNat - 1) ht
  refine ⟨c0, c1, hc0, hc1, hc0lo, hc0hi, hc1lo, hc1hi, ?_, hc1len⟩
  by_contra hlt
  have h3 : c1 + 1 ≤ c0 := by omega
  have := sum_take_mono ax.chunks (c1 + 1) c0 h3
  omega

/-- C8: `array_slice_to_chunk_slice(start, stop)`: for every positive-chunk
`ChunkAxis`, the call fails with a range error exactly when the stride is not
1 (a `step` other than absent or 1), or `start ≥ stop`, or a bound lies
outside `[0, length]`; and in the errorless case it returns the minimal
contiguous chunk-ordinal range `[c0, c1)` whose union covers `[start, stop)`:
every array position of `[start, stop)` lies in some chunk of the range, and
any contiguous chunk range covering `[start, stop)` contains `[c0, c1)`. -/
theorem array_slice_to_chunk_slice_minimal_cover (ax : ChunkAxis)
    (start stop : Int) (step : Option Int) (hpos : ∀ x ∈ ax.chunks, 0 < x) :
    (ax.array_slice_to_chunk_slice start stop step = none ↔
      ¬((step = none ∨ step = some 1) ∧ 0 ≤ start ∧ start < stop ∧ stop ≤ (ax.len : Int))) ∧
    ((step = none ∨ step = some 1) → 0 ≤ start → start < stop → stop ≤ (ax.len : Int) →
      ∃ c0 c1, ax.array_slice_to_chunk_slice start stop step = some (c0, c1) ∧
        c0 < c1 ∧ c1 ≤ ax.nchunks ∧
        (∀ i : Nat, start ≤ (i : Int) → (i : Int) < stop →
          ∃ c, c0 ≤ c ∧ c < c1 ∧ ax.chunkStart c ≤ i ∧ i < ax.chunkStop c) ∧
        (∀ d0 d1 : Nat,
          (∀ i : Nat, start ≤ (i : Int) → (i : Int) < stop →
            ∃ c, d0 ≤ c ∧ c < d1 ∧ ax.chunkStart c ≤ i ∧ i < ax.chunkStop c) →
          d0 ≤ c0 ∧ c1 ≤ d1)) := by
  constructor
  · constructor
    · intro hnone hvalid
      obtain ⟨c0, c1, hc0, hc1, _⟩ :=
        array_slice_valid_some ax start stop hvalid.2.1 hvalid.2.2.1 hvalid.2.2.2
      unfold ChunkAxis.array_slice_to_chunk_slice at hnone
      rw [if_pos hvalid, hc0, hc1] at hnone
      exact Option.noConfusion hnone
    · intro hnv
      unfold ChunkAxis.array_slice_to_chunk_slice
      rw [if_neg hnv]
  · intro hstep h0 h1 h2
    obtain ⟨c0, c1, hc0, hc1, hc0lo, hc0hi, hc1lo, hc1hi, hle, hc1len⟩ :=
      array_slice_valid_some ax start stop h0 h1 h2
    refine ⟨c0, c1 + 1, ?_, by omega, by omega, ?_, ?_⟩
    · unfold ChunkAxis.array_slice_to_chunk_slice
      rw [if_pos ⟨hstep, h0, h1, h2⟩, hc0, hc1]
    · intro i hi1 hi2
      have hlen_eq : ax.len = ax.chunks.sum := rfl
      have hilen : i < ax.chunks.sum := by omega
      obtain ⟨c, hc, hclen, hclo, hchi⟩ := searchChunk_spec ax.chunks i hilen
      refine ⟨c, ?_, ?_, hclo, hchi⟩
      · by_contra hlt
        have h3 : c + 1 ≤ c0 := by omega
        have := sum_take_mono ax.chunks (c + 1) c0 h3
        omega
      · by_contra hlt
        have h3 : c1 + 1 ≤ c := by omega
        have := sum_take_mono ax.chunks (c1 + 1) c h3
        omega
    · intro d0 d1 hcover
      obtain ⟨c, hcd0, hcd1, hclo, hchi⟩ :=
        hcover start.toNat (by omega) (by omega)
      have hceq : c = c0 :=
        containing_chunk_unique ax.chunks start.toNat c c0 hclo hchi hc0lo hc0hi
      obtain ⟨c', hcd0', hcd1', hclo', hchi'⟩ :=
        hcover (stop.toNat - 1) (by omega) (by omega)
      have hceq' : c' = c1 :=
        containing_chunk_unique ax.chunks (stop.toNat - 1) c' c1 hclo' hchi' hc1lo hc1hi
      omega

end ChunkAxisLemmas

/-- Witness for C8 at the repository test's axis `(2, 4, 3)` and the slice
`[2, 6)`: the hypotheses hold and the call succeeds with chunk range `[1, 2)`
as in `test_chunk_axis`. -/
theorem array_slice_to_chunk_slice_minimal_cover_witness :
    (∀ x ∈ ({ chunks := [2, 4, 3] } : ChunkAxis).chunks, 0 < x) ∧
    ChunkAxis.array_slice_to_chunk_slice ⟨[2, 4, 3]⟩ 2 6 none = some (1, 2) ∧
    (ChunkAxis.array_slice_to_chunk_slice ⟨[2, 4, 3]⟩ 2 6 none = none ↔
      ¬(((none : Option Int) = none ∨ (none : Option Int) = some 1) ∧ (0 : Int) ≤ 2 ∧ (2 : Int) < 6 ∧
        (6 : Int) ≤ ((ChunkAxis.len ⟨[2, 4, 3]⟩ : Nat) : Int))) :=
  ⟨by decide, by decide,
    (array_slice_to_chunk_slice_minimal_cover ⟨[2, 4, 3]⟩ 2 6 none (by decide)).1⟩

theorem getD_replicate (n a d : Nat) :
    ∀ i, (List.replicate n a).getD i d = if i < n then a else d := by
  induction n with
  | zero => intro i; simp
  | succ m ih =>
    intro i
    cases i with
    | zero => simp [List.replicate]
    | succ j => simpa [List.replicate] using ih j

/-- C2 counterexample: at the axis `(2, 4, 3)` with factor 2 — the data of the
repository test `test_chunk_axis_subsets` — the claimed rule (the first
`remainder` pieces get `base + 1`) would divide the chunk of length 3 into
`(2, 1)`, giving `(1, 1, 2, 2, 2, 1)`, while the behaviour pinned by the test
is `(1, 1, 2, 2, 1, 2)`: the extra unit goes to the last piece. -/
theorem subset_remainder_first_counterexample :
    ChunkAxis.subset ⟨[2, 4, 3]⟩ 2 = ⟨[1, 1, 2, 2, 1, 2]⟩ ∧
    ChunkAxis.subsetSpecOrder ⟨[2, 4, 3]⟩ 2 = ⟨[1, 1, 2, 2, 2, 1]⟩ ∧
    ChunkAxis.subset ⟨[2, 4, 3]⟩ 2 ≠ ChunkAxis.subsetSpecOrder ⟨[2, 4, 3]⟩ 2 := by
  decide

/-- C2 (amended): `subset(factor)` divides every original chunk of length `L`,
independently and in order, into `factor` pieces with `base = L div factor`
and `remainder = L mod factor`, where the first `factor - remainder` pieces
have length `base` and the LAST `remainder` pieces have length `base + 1`
(the placement the repository test pins down); every group of `factor` pieces
sums exactly to `L`, and the new chunk tuple is the in-order concatenation of
the per-chunk divisions. -/
theorem subset_division_rule (ax : ChunkAxis) (factor : Nat) (hf : 1 ≤ factor) :
    (ax.subset factor).chunks =
      (ax.chunks.map (fun L => ChunkAxis.subsetChunk L factor)).flatten ∧
    (∀ L ∈ ax.chunks,
      (ChunkAxis.subsetChunk L factor).length = factor ∧
      (ChunkAxis.subsetChunk L factor).sum = L ∧
      (∀ i, i < factor →
        (ChunkAxis.subsetChunk L factor).getD i 0 =
          if i < factor - L % factor then L / factor else L / factor + 1)) ∧
    (ax.subset factor).chunks.sum = ax.chunks.sum := by
  have hmain : ∀ L : Nat,
      (ChunkAxis.subsetChunk L factor).length = factor ∧
      (ChunkAxis.subsetChunk L factor).sum = L ∧
      (∀ i, i < factor →
        (ChunkAxis.subsetChunk L factor).getD i 0 =
          if i < factor - L % factor then L / factor else L / factor + 1) := by
    intro L
    have hr : L % factor < factor := Nat.mod_lt _ hf
    have hrle : L % factor ≤ factor := le_of_lt hr
    obtain ⟨d, hd⟩ := Nat.exists_eq_add_of_le hrle
    have hsub : factor - L % factor = d := by omega
    refine ⟨?_, ?_, ?_⟩
    · simp [ChunkAxis.subsetChunk]; omega
    · have hdm : factor * (L / factor) + L % factor = L := Nat.div_add_mod L factor
      simp only [ChunkAxis.subsetChunk, List.sum_append, List.sum_replicate, smul_eq_mul]
      have hstep : (factor - L % factor) * (L / factor) + L % factor * (L / factor + 1) =
          factor * (L / factor) + L % factor := by
        have h1 : factor - L % factor + L % factor = factor := by omega
        calc (factor - L % factor) * (L / factor) + L % factor * (L / factor + 1)
            = ((factor - L % factor) + L % factor) * (L / factor) + L % factor := by ring
          _ = factor * (L / factor) + L % factor := by rw [h1]
      omega
    · intro i hi
      unfold ChunkAxis.subsetChunk
      by_cases hcase : i < factor - L % factor
      · rw [List.getD_append _ _ _ _ (by simpa using hcase), getD_replicate, if_pos hcase,
          if_pos hcase]
      · have hlen : (List.replicate (factor - L % factor) (L / factor)).length ≤ i := by
          simpa using Nat.le_of_not_lt hcase
        rw [List.getD_append_right _ _ _ _ hlen, if_neg hcase]
        rw [List.length_replicate, getD_replicate, if_pos (by omega)]
  refine ⟨rfl, fun L _ => hmain L, ?_⟩
  show ((ax.chunks.map (fun L => ChunkAxis.subsetChunk L factor)).flatten).sum = ax.chunks.sum
  rw [List.sum_flatten]
  induction ax.chunks with
  | nil => rfl
  | cons x xs ih => simp only [List.map_cons, List.map_map, List.sum_cons] at ih ⊢
                    rw [(hmain x).2.1, ih]

/-- Witness for C2 at the axis `(2, 4, 3)` with factor 2. -/
theorem subset_division_rule_witness :
    1 ≤ 2 ∧ (ChunkAxis.subset ⟨[2, 4, 3]⟩ 2).chunks.sum = ([2, 4, 3] : List Nat).sum :=
  ⟨by decide, (subset_division_rule ⟨[2, 4, 3]⟩ 2 (by decide)).2.2⟩

/-- Modelled from the spec: a `ChunkGrid` is a mapping from dimension name to
`ChunkAxis`, kept here as an association list in declaration order. -/
structure ChunkGrid where
  axes : List (String × ChunkAxis)
  deriving DecidableEq, Repr

/-- Modelled from the spec: `from_uniform_grid` takes, per dimension, a
`(chunk_size, total_length)` pair and derives the uniform chunk axis. -/
def ChunkGrid.from_uniform_grid (spec : List (String × Nat × Nat)) : ChunkGrid :=
  ⟨spec.map (fun e => (e.1, ⟨uniformChunks e.2.1 e.2.2⟩))⟩

/-- The claim's reference construction, written from its words: per dimension,
`total_length div chunk_size` chunks of size `chunk_size` followed by one
final remainder chunk of `total_length mod chunk_size`, omitted when the
remainder is zero. -/
def manualUniformAxis (cs tl : Nat) : ChunkAxis :=
  ⟨List.replicate (tl / cs) cs ++ (if tl % cs = 0 then [] else [tl % cs])⟩

/-- The grid built directly from the claim's per-dimension chunk tuples. -/
def ChunkGrid.manual_uniform_grid (spec : List (String × Nat × Nat)) : ChunkGrid :=
  ⟨spec.map (fun e => (e.1, manualUniformAxis e.2.1 e.2.2))⟩

/-- C9: for every spec `{dim: (chunk_size, total_length)}` with positive
entries, `from_uniform_grid` constructs exactly the grid built directly from
the claim's per-dimension chunk tuples; moreover each constructed axis is
well-formed: its total length is `total_length` and every chunk is positive
and at most `chunk_size`. -/
theorem from_uniform_grid_equiv (spec : List (String × Nat × Nat))
    (hpos : ∀ e ∈ spec, 0 < e.2.1 ∧ 0 < e.2.2) :
    ChunkGrid.from_uniform_grid spec = ChunkGrid.manual_uniform_grid spec ∧
    (∀ e ∈ spec, ((⟨uniformChunks e.2.1 e.2.2⟩ : ChunkAxis)).len = e.2.2 ∧
      (e.1, (⟨uniformChunks e.2.1 e.2.2⟩ : ChunkAxis)) ∈ (ChunkGrid.from_uniform_grid spec).axes ∧
      (∀ c ∈ uniformChunks e.2.1 e.2.2, 0 < c ∧ c ≤ e.2.1)) := by
  refine ⟨rfl, fun e he => ⟨sum_uniform _ _ (hpos e he).1, ?_, ?_⟩⟩
  · exact List.mem_map.mpr ⟨e, he, rfl⟩
  · intro c hc
    obtain ⟨hcs, _⟩ := hpos e he
    unfold uniformChunks at hc
    rcases List.mem_append.mp hc with h | h
    · have : c = e.2.1 := List.eq_of_mem_replicate h
      omega
    · by_cases hz : e.2.2 % e.2.1 = 0
      · rw [if_pos hz] at h; simp at h
      · rw [if_neg hz] at h
        have hcv : c = e.2.2 % e.2.1 := by simpa using h
        have := Nat.mod_lt e.2.2 hcs
        omega

/-- Witness for C9 at the data of `test_chunk_grid_from_uniform_grid`:
`{"x": (2, 4), "y": (3, 10)}` yields the grid `{"x": (2, 2), "y": (3, 3, 3, 1)}`. -/
theorem from_uniform_grid_equiv_witness :
    ChunkGrid.from_uniform_grid [("x", 2, 4), ("y", 3, 10)] =
      ChunkGrid.manual_uniform_grid [("x", 2, 4), ("y", 3, 10)] ∧
    ChunkGrid.from_uniform_grid [("x", 2, 4), ("y", 3, 10)] =
      ⟨[("x", ⟨[2, 2]⟩), ("y", ⟨[3, 3, 3, 1]⟩)]⟩ :=
  ⟨(from_uniform_grid_equiv [("x", 2, 4), ("y", 3, 10)] (by decide)).1, by decide⟩

/-! Embedding of `pangeo_forge_recipes/patterns.py` (present in the source
tree).  Keys of concat and merge dimensions are opaque; the embedding is
parameterised by their type `K`.  A `SubsetDim` carries no key sequence of its
own: its keys are `list(range(subset_factor))`. -/

namespace Patterns

/-- `SubsetSpec`: how to subset a file in one dimension
(`patterns.py`, `SubsetSpec`).  The `__post_init__` assertions
(`0 ≤ this_segment < total_segments`, `total_segments > 0`) are enforced at
the construction site in `FilePattern.__getitem__`'s embedding. -/
structure SubsetSpec where
  dim_name : String
  this_segment : Nat
  total_segments : Nat
  deriving DecidableEq, Repr

/-- `OpenSpec`: a file name plus subset specs (`patterns.py`, `OpenSpec`). -/
structure OpenSpec where
  fname : String
  subsets : List SubsetSpec
  deriving DecidableEq, Repr

/-- The closed set of combine dimensions: `ConcatDim`, `MergeDim`,
`SubsetDim` (`patterns.py`). -/
inductive CombineDim (K : Type) where
  | concat (name : String) (keys : List K) (nitems_per_file : Option Nat)
  | merge (name : String) (keys : List K)
  | subset (dim : String) (subset_factor : Nat)
  deriving DecidableEq, Repr

/-- `SubsetDim.keys`: `list(range(subset_factor))`. -/
def subsetDimKeys (subset_factor : Nat) : List Nat := List.range subset_factor

namespace CombineDim

/-- The `name` seen by `FilePattern`: a `SubsetDim`'s name property is the
derived string `dim + "_subset"`. -/
def name {K : Type} : CombineDim K → String
  | .concat n _ _ => n
  | .merge n _ => n
  | .subset d _ => d ++ "_subset"

/-- `len(op.keys)` as used by `FilePattern.dims` and `FilePattern.shape`. -/
def keyCount {K : Type} : CombineDim K → Nat
  | .concat _ ks _ => ks.length
  | .merge _ ks => ks.length
  | .subset _ f => (subsetDimKeys f).length

end CombineDim

/-- `FilePattern`: a filename-formatting function over keyword arguments (one
per non-subset combine dimension, represented as an association list in
declaration order) and an ordered sequence of combine dimensions. -/
structure FilePattern (K : Type) where
  format_function : List (String × K) → String
  combine_dims : List (CombineDim K)

namespace FilePattern

variable {K : Type}

/-- `FilePattern.dims`: dimension name to item count, in declaration order. -/
def dims (fp : FilePattern K) : List (String × Nat) :=
  fp.combine_dims.map (fun op => (op.name, op.keyCount))

/-- `FilePattern.shape`: the tuple of per-dimension key counts. -/
def shape (fp : FilePattern K) : List Nat :=
  fp.combine_dims.map CombineDim.keyCount

/-- `FilePattern.merge_dims`: names of the merge dimensions. -/
def merge_dims (fp : FilePattern K) : List String :=
  fp.combine_dims.filterMap (fun op => match op with
    | .merge n _ => some n
    | _ => none)

/-- `FilePattern.concat_dims`: names of the concat dimensions. -/
def concat_dims (fp : FilePattern K) : List String :=
  fp.combine_dims.filterMap (fun op => match op with
    | .concat n _ _ => some n
    | _ => none)

/-- `FilePattern.subset_dims`: names (with the `_subset` suffix) of the
subset dimensions. -/
def subset_dims (fp : FilePattern K) : List String :=
  fp.combine_dims.filterMap (fun op => match op with
    | .subset _ _ => some op.name
    | _ => none)

/-- The keyword set of `__getitem__`: for every non-subset combine dimension,
`cdim.name: cdim.keys[i]`; fails when a coordinate is out of range for its
key sequence. -/
def formatKwargs : List (CombineDim K × Nat) → Option (List (String × K))
  | [] => some []
  | (op, i) :: rest => match op with
    | .subset _ _ => formatKwargs rest
    | .concat n ks _ => do
      let k ← ks.get? i
      let r ← formatKwargs rest
      pure ((n, k) :: r)
    | .merge n ks => do
      let k ← ks.get? i
      let r ← formatKwargs rest
      pure ((n, k) :: r)

/-- The subset-spec list of `__getitem__`: for every `SubsetDim`, a
`SubsetSpec(dim, this_segment=i, total_segments=subset_factor)`; the
`SubsetSpec.__post_init__` assertions fail when the coordinate is out of
range. -/
def subsetSpecsOf : List (CombineDim K × Nat) → Option (List SubsetSpec)
  | [] => some []
  | (op, i) :: rest => match op with
    | .subset d f =>
      if 0 < f ∧ i < f then (subsetSpecsOf rest).map (fun r => ⟨d, i, f⟩ :: r)
      else none
    | _ => subsetSpecsOf rest

/-- `FilePattern.__getitem__`: asserts that the indexer has one coordinate
per combine dimension, then builds the `OpenSpec`. -/
def getitem (fp : FilePattern K) (indexer : List Nat) : Option OpenSpec :=
  if indexer.length = fp.combine_dims.length then do
    let kwargs ← formatKwargs (fp.combine_dims.zip indexer)
    let subs ← subsetSpecsOf (fp.combine_dims.zip indexer)
    pure ⟨fp.format_function kwargs, subs⟩
  else none

end FilePattern

/-- The Cartesian product of a list of lists, in `itertools.product` order:
the first list varies slowest, the last varies fastest. -/
def listProd : List (List Nat) → List (List Nat)
  | [] => [[]]
  | xs :: rest => xs.flatMap (fun x => (listProd rest).map (fun l => x :: l))

/-- `FilePattern.__iter__`: `product(*[range(n) for n in self.shape])`. -/
def FilePattern.iter {K : Type} (fp : FilePattern K) : List (List Nat) :=
  listProd (fp.shape.map List.range)

/-- `prune_pattern(fp, nkeep)` exactly as written in `patterns.py`: merge
dimensions are appended unchanged, concat dimensions are appended with their
key sequence truncated to the first `nkeep` keys, and any other combine
dimension falls through to `assert "Should never happen"` — a no-op on a
non-empty string — so nothing is appended for it. -/
def prune_pattern {K : Type} (fp : FilePattern K) (nkeep : Nat) : FilePattern K :=
  ⟨fp.format_function,
    fp.combine_dims.filterMap (fun cdim => match cdim with
      | .merge n ks => some (.merge n ks)
      | .concat n ks nipf => some (.concat n (ks.take nkeep) nipf)
      | .subset _ _ => none)⟩

end Patterns

namespace Patterns

/-- The keyword set of a fully in-range indexer, as a direct (non-monadic)
view: one `(name, key)` pair per non-subset combine dimension. -/
def kwargsView {K : Type} (fp : FilePattern K) (ix : List Nat) : List (String × K) :=
  (fp.combine_dims.zip ix).filterMap (fun p => match p.1 with
    | .subset _ _ => none
    | .concat n ks _ => (ks.get? p.2).map (fun k => (n, k))
    | .merge n ks => (ks.get? p.2).map (fun k => (n, k)))

/-- The subset-spec list of an indexer, as a direct view: one
`SubsetSpec(dim, coordinate, subset_factor)` per `SubsetDim`, in declaration
order. -/
def subsetsView {K : Type} (fp : FilePattern K) (ix : List Nat) : List SubsetSpec :=
  (fp.combine_dims.zip ix).filterMap (fun p => match p.1 with
    | .subset d f => some ⟨d, p.2, f⟩
    | _ => none)

theorem formatKwargs_inrange {K : Type} :
    ∀ (l : List (CombineDim K)) (ix : List Nat),
      List.Forall₂ (fun (i : Nat) (op : CombineDim K) => i < op.keyCount) ix l →
      FilePattern.formatKwargs (l.zip ix) =
        some (ix.zip l |>.filterMap (fun p => match p.2 with
          | .subset _ _ => none
          | .concat n ks _ => (ks.get? p.1).map (fun k => (n, k))
          | .merge n ks => (ks.get? p.1).map (fun k => (n, k)))) := by
  intro l ix h
  induction h with
  | nil => rfl
  | cons hrel hrest ih =>
    rename_i i op ixt lt
    cases op with
    | subset d f =>
      rw [List.zip_cons_cons, List.zip_cons_cons, List.filterMap_cons]
      exact ih
    | concat n ks nipf =>
      have hlen : i < ks.length := by simpa [CombineDim.keyCount] using hrel
      have hks : ks.get? i = some ks[i] := by
        rw [List.get?_eq_getElem?, List.getElem?_eq_getElem hlen]
      rw [List.zip_cons_cons, List.zip_cons_cons, List.filterMap_cons]
      simp only [FilePattern.formatKwargs, hks, ih]
      rfl
    | merge n ks =>
      have hlen : i < ks.length := by simpa [CombineDim.keyCount] using hrel
      have hks : ks.get? i = some ks[i] := by
        rw [List.get?_eq_getElem?, List.getElem?_eq_getElem hlen]
      rw [List.zip_cons_cons, List.zip_cons_cons, List.filterMap_cons]
      simp only [FilePattern.formatKwargs, hks, ih]
      rfl

theorem subsetSpecsOf_inrange {K : Type} :
    ∀ (l : List (CombineDim K)) (ix : List Nat),
      List.Forall₂ (fun (i : Nat) (op : CombineDim K) => i < op.keyCount) ix l →
      FilePattern.subsetSpecsOf (l.zip ix) =
        some (ix.zip l |>.filterMap (fun p => match p.2 with
          | .subset d f => some (⟨d, p.1, f⟩ : SubsetSpec)
          | _ => none)) := by
  intro l ix h
  induction h with
  | nil => rfl
  | cons hrel hrest ih =>
    rename_i i op ixt lt
    cases op with
    | subset d f =>
      have hif2 : i < f := by simpa [CombineDim.keyCount, subsetDimKeys] using hrel
      rw [List.zip_cons_cons, List.zip_cons_cons, List.filterMap_cons]
      simp only [FilePattern.subsetSpecsOf]
      rw [if_pos (⟨by omega, hif2⟩ : 0 < f ∧ i < f), ih]
      rfl
    | concat n ks nipf =>
      rw [List.zip_cons_cons, List.zip_cons_cons, List.filterMap_cons]
      exact ih
    | merge n ks =>
      rw [List.zip_cons_cons, List.zip_cons_cons, List.filterMap_cons]
      exact ih

end Patterns

namespace Patterns

theorem kwargsView_eq {K : Type} (fp : FilePattern K) (ix : List Nat) :
    kwargsView fp ix =
      (ix.zip fp.combine_dims |>.filterMap (fun p => match p.2 with
        | .subset _ _ => none
        | .concat n ks _ => (ks.get? p.1).map (fun k => (n, k))
        | .merge n ks => (ks.get? p.1).map (fun k => (n, k)))) := by
  unfold kwargsView
  generalize fp.combine_dims = l
  induction l generalizing ix with
  | nil => simp
  | cons a l ih =>
    cases ix with
    | nil => simp
    | cons i it =>
      rw [List.zip_cons_cons, List.zip_cons_cons, List.filterMap_cons, List.filterMap_cons]
      cases a <;> simp only [ih]

theorem subsetsView_eq {K : Type} (fp : FilePattern K) (ix : List Nat) :
    subsetsView fp ix =
      (ix.zip fp.combine_dims |>.filterMap (fun p => match p.2 with
        | .subset d f => some (⟨d, p.1, f⟩ : SubsetSpec)
        | _ => none)) := by
  unfold subsetsView
  generalize fp.combine_dims = l
  induction l generalizing ix with
  | nil => simp
  | cons a l ih =>
    cases ix with
    | nil => simp
    | cons i it =>
      rw [List.zip_cons_cons, List.zip_cons_cons, List.filterMap_cons, List.filterMap_cons]
      cases a <;> simp only [ih]

/-- C6: resolving an indexer through `FilePattern.__getitem__`: when the
coordinate count differs from the number of combine dimensions the call fails
with a contract-violation error; when the indexer has one in-range coordinate
per combine dimension, it returns the `OpenSpec` whose file identifier is the
caller-supplied formatting function applied to the keyword set over exactly
the non-subset combine dimensions, and whose subset list has, per `SubsetDim`
in declaration order, `SubsetSpec(dim, this_segment = coordinate,
total_segments = subset_factor)`. -/
theorem getitem_resolution {K : Type} (fp : FilePattern K) (ix : List Nat) :
    (ix.length ≠ fp.combine_dims.length → fp.getitem ix = none) ∧
    (List.Forall₂ (fun (i : Nat) (op : CombineDim K) => i < op.keyCount) ix fp.combine_dims →
      fp.getitem ix = some ⟨fp.format_function (kwargsView fp ix), subsetsView fp ix⟩) := by
  constructor
  · intro hne
    unfold FilePattern.getitem
    rw [if_neg hne]
  · intro hall
    have hlen : ix.length = fp.combine_dims.length := hall.length_eq
    have h1 := formatKwargs_inrange fp.combine_dims ix hall
    have h2 := subsetSpecsOf_inrange fp.combine_dims ix hall
    unfold FilePattern.getitem
    rw [if_pos hlen, kwargsView_eq, subsetsView_eq, h1, h2]
    rfl

/-- Witness for C6: a pattern with a concat, a merge and a subset dimension,
resolved at the indexer `(1, 0, 1)`. -/
theorem getitem_resolution_witness :
    FilePattern.getitem
      (⟨fun l => String.join (l.map Prod.snd),
        [CombineDim.concat "time" ["a", "b"] none,
         CombineDim.merge "var" ["u", "v"],
         CombineDim.subset "time" 2]⟩ : FilePattern String) [1, 0, 1] =
      some ⟨"bu", [⟨"time", 1, 2⟩]⟩ := by
  have h := (getitem_resolution
      (⟨fun l => String.join (l.map Prod.snd),
        [CombineDim.concat "time" ["a", "b"] none,
         CombineDim.merge "var" ["u", "v"],
         CombineDim.subset "time" 2]⟩ : FilePattern String) [1, 0, 1]).2
    (List.Forall₂.cons (by decide)
      (List.Forall₂.cons (by decide) (List.Forall₂.cons (by decide) List.Forall₂.nil)))
  exact h.trans (by decide)

/-- C5 counterexample: a pattern holding a `SubsetDim` loses it under
`prune_pattern` — the fall-through branch `assert "Should never happen"` is a
no-op on a non-empty string and nothing is appended — contradicting the
claim that every `SubsetDim` is still present in the pruned pattern. -/
theorem prune_pattern_drops_subset_counterexample :
    (prune_pattern
        (⟨fun _ => "f",
          [CombineDim.concat "time" [0, 1, 2, 3] none,
           CombineDim.subset "time" 2]⟩ : FilePattern Nat) 2).subset_dims = [] ∧
    (⟨fun _ => "f",
        [CombineDim.concat "time" [0, 1, 2, 3] none,
         CombineDim.subset "time" 2]⟩ : FilePattern Nat).subset_dims =
      ["time_subset"] := by
  constructor <;> rfl

/-- C5 (amended): `prune_pattern(fp, nkeep)` keeps every `MergeDim` unchanged
(same name and full key set), replaces every `ConcatDim`'s key sequence by its
first `nkeep` keys (keeping `nitems_per_file`), reuses the original formatting
function unchanged and does not mutate the input — but it silently DROPS every
`SubsetDim`: the fall-through branch appends nothing, so the pruned pattern
contains exactly the non-subset dimensions, in order. -/
theorem prune_pattern_spec {K : Type} (fp : FilePattern K) (nkeep : Nat) :
    (prune_pattern fp nkeep).format_function = fp.format_function ∧
    (∀ n ks, CombineDim.merge n ks ∈ fp.combine_dims →
      CombineDim.merge n ks ∈ (prune_pattern fp nkeep).combine_dims) ∧
    (∀ n ks nipf, CombineDim.concat n ks nipf ∈ fp.combine_dims →
      CombineDim.concat n (ks.take nkeep) nipf ∈ (prune_pattern fp nkeep).combine_dims) ∧
    (∀ d f, CombineDim.subset d f ∉ (prune_pattern fp nkeep).combine_dims) ∧
    (prune_pattern fp nkeep).combine_dims.length =
      (fp.combine_dims.filter (fun op => match op with
        | CombineDim.subset _ _ => false
        | _ => true)).length := by
  refine ⟨rfl, ?_, ?_, ?_, ?_⟩
  · intro n ks h
    exact List.mem_filterMap.mpr ⟨CombineDim.merge n ks, h, rfl⟩
  · intro n ks nipf h
    exact List.mem_filterMap.mpr ⟨CombineDim.concat n ks nipf, h, rfl⟩
  · intro d f h
    obtain ⟨a, _, ha⟩ := List.mem_filterMap.mp h
    cases a <;> simp at ha
  · show (fp.combine_dims.filterMap _).length = _
    induction fp.combine_dims with
    | nil => rfl
    | cons a l ih =>
      cases a <;> simp [List.filterMap_cons, List.filter_cons, ih]

/-- Witness for C5: the merge dimension of a concrete pattern survives
pruning. -/
theorem prune_pattern_spec_witness :
    CombineDim.merge "var" [5] ∈
      (prune_pattern
        (⟨fun _ => "g",
          [CombineDim.merge "var" [5],
           CombineDim.concat "t" [1, 2, 3] none]⟩ : FilePattern Nat) 2).combine_dims :=
  (prune_pattern_spec
    (⟨fun _ => "g",
      [CombineDim.merge "var" [5],
       CombineDim.concat "t" [1, 2, 3] none]⟩ : FilePattern Nat) 2).2.1
    "var" [5] (by decide)

/-- C10: a `SubsetDim` over an underlying dimension `d` appears in `dims`
(and hence in the shape ordering) and in `subset_dims` under the derived name
`d ++ "_subset"`, never the bare `d`; its key sequence is exactly the
integers `0 .. subset_factor - 1`; and its derived name never equals the bare
name `d`, so it cannot collide with a `ConcatDim` or `MergeDim` named `d`. -/
theorem subset_dim_naming {K : Type} (fp : FilePattern K) (d : String) (f : Nat)
    (h : CombineDim.subset d f ∈ fp.combine_dims) :
    (d ++ "_subset", f) ∈ fp.dims ∧
    (d ++ "_subset") ∈ fp.subset_dims ∧
    (∀ i : Nat, i ∈ subsetDimKeys f ↔ i < f) ∧
    CombineDim.name (CombineDim.subset d f : CombineDim K) ≠ d := by
  refine ⟨?_, ?_, ?_, ?_⟩
  · exact List.mem_map.mpr ⟨CombineDim.subset d f, h,
      by simp [CombineDim.name, CombineDim.keyCount, subsetDimKeys]⟩
  · exact List.mem_filterMap.mpr ⟨CombineDim.subset d f, h, rfl⟩
  · intro i
    exact List.mem_range
  · intro heq
    have hlen := congrArg String.length heq
    rw [CombineDim.name, String.length_append] at hlen
    have h7 : "_subset".length = 7 := by decide
    omega

/-- Witness for C10: a pattern with a subset dimension over `"lat"` with
factor 3. -/
theorem subset_dim_naming_witness :
    ("lat" ++ "_subset", 3) ∈
      (⟨fun _ => "h", [CombineDim.subset "lat" 3]⟩ : FilePattern Nat).dims :=
  (subset_dim_naming (⟨fun _ => "h", [CombineDim.subset "lat" 3]⟩ : FilePattern Nat)
    "lat" 3 (by decide)).1

theorem mem_listProd (ls : List (List Nat)) :
    ∀ l, l ∈ listProd ls ↔ List.Forall₂ (fun x xs => x ∈ xs) l ls := by
  induction ls with
  | nil =>
    intro l
    simp [listProd, List.forall₂_nil_right_iff]
  | cons xs rest ih =>
    intro l
    simp only [listProd, List.mem_flatMap, List.mem_map]
    constructor
    · rintro ⟨x, hx, t, ht, rfl⟩
      exact List.Forall₂.cons hx ((ih t).mp ht)
    · intro hl
      rcases List.forall₂_cons_right_iff.mp hl with ⟨x, t, hx, ht, rfl⟩
      exact ⟨x, hx, t, (ih t).mpr ht, rfl⟩

theorem pairwise_flatMap {α β : Type} (r : β → β → Prop) (f : α → List β)
    (l : List α)
    (hcross : List.Pairwise (fun a a' => ∀ b ∈ f a, ∀ b' ∈ f a', r b b') l)
    (heach : ∀ a ∈ l, List.Pairwise r (f a)) :
    List.Pairwise r (l.flatMap f) := by
  induction l with
  | nil => simp
  | cons a l ih =>
    rw [List.flatMap_cons, List.pairwise_append]
    refine ⟨heach a (by simp), ih (List.Pairwise.sublist (by simp) hcross)
      (fun a' ha' => heach a' (by simp [ha'])), ?_⟩
    intro b hb b' hb'
    obtain ⟨a', ha', hba'⟩ := List.mem_flatMap.mp hb'
    exact (List.pairwise_cons.mp hcross).1 a' ha' b hb b' hba'

theorem pairwise_listProd (ls : List (List Nat))
    (hls : ∀ xs ∈ ls, List.Pairwise (· < ·) xs) :
    List.Pairwise (List.Lex (· < ·)) (listProd ls) := by
  induction ls with
  | nil => simp [listProd]
  | cons xs rest ih =>
    rw [listProd]
    refine Patterns.pairwise_flatMap _ _ _ ?_ ?_
    · refine List.Pairwise.imp ?_ (hls xs (by simp))
      intro x x' hxx' b hb b' hb'
      obtain ⟨t, _, rfl⟩ := List.mem_map.mp hb
      obtain ⟨t', _, rfl⟩ := List.mem_map.mp hb'
      exact List.Lex.rel hxx'
    · intro x _
      refine List.pairwise_map.mpr ?_
      refine List.Pairwise.imp ?_ (ih (fun ys hys => hls ys (by simp [hys])))
      intro t t' htt'
      exact List.Lex.cons htt'

/-- C7: `FilePattern.__iter__` yields exactly every indexer of the Cartesian
product of per-dimension key ranges (one in-range coordinate per dimension,
in declaration order), in row-major order with the last dimension varying
fastest — the sequence is strictly lexicographically increasing, hence free of
duplicates; iteration is a pure recomputation, so iterating twice yields the
identical finite sequence, and `__getitem__` resolves the same indexer to the
same `OpenSpec` on every call. -/
theorem iter_enumeration {K : Type} (fp : FilePattern K) :
    (∀ ix, ix ∈ fp.iter ↔
      List.Forall₂ (fun (i : Nat) (op : CombineDim K) => i < op.keyCount) ix fp.combine_dims) ∧
    List.Pairwise (List.Lex (· < ·)) fp.iter ∧
    fp.iter = fp.iter ∧
    (∀ ix, fp.getitem ix = fp.getitem ix) := by
  refine ⟨?_, ?_, rfl, fun _ => rfl⟩
  · intro ix
    rw [FilePattern.iter, mem_listProd]
    unfold FilePattern.shape
    rw [List.map_map]
    constructor
    · intro hf
      have := List.forall₂_map_right_iff.mp hf
      exact this.imp (fun {a b} hab => List.mem_range.mp hab)
    · intro hf
      exact List.forall₂_map_right_iff.mpr (hf.imp (fun {a b} hab => List.mem_range.mpr hab))
  · exact pairwise_listProd _ (by
      intro xs hxs
      obtain ⟨n, _, rfl⟩ := List.mem_map.mp hxs
      exact List.pairwise_lt_range n)

end Patterns

/-! Model of the fragment splitter (`rechunking.py` is absent from the source
tree; only `tests/test_rechunking.py` exercises it).  Everything below is
modelled from the specification, with the behaviours pinned by the repository
tests kept faithful to those tests: a target dimension absent from the
fragment's `Index` is treated as spanning the dataset's full extent along that
dimension face and is split like any other, the emitted composite group key is
sorted, and the sub-`Index` values carry position 0. -/

namespace Rechunking

/-- Modelled from the spec: the operation kind of an `Index` entry
(`CombineOp` in the test imports). -/
inductive CombineOp where
  | merge
  | concat
  | subset
  deriving DecidableEq, Repr

/-- Modelled from the spec: a `DimKey` pairs a dimension name with the
operation kind. -/
structure DimKey where
  name : String
  op : CombineOp
  deriving DecidableEq, Repr

/-- Modelled from the spec: a `DimVal` carries a position ordinal and the
`[start, stop)` range in global array-index space. -/
structure DimVal where
  position : Nat
  start : Nat
  stop : Nat
  deriving DecidableEq, Repr

/-- Modelled from the spec: the fragment's positional tag, a mapping from
`DimKey` to `DimVal` (kept as an association list). -/
abbrev Index := List (DimKey × DimVal)

/-- Modelled from the spec: find the concat entry of a dimension in an
`Index`. -/
def find_concat_dim : Index → String → Option DimVal
  | [], _ => none
  | (k, v) :: rest, d =>
    if k.name = d ∧ k.op = CombineOp.concat then some v else find_concat_dim rest d

/-- Lookup of a dimension's extent in the dataset's dimension sizes. -/
def lookupDim : List (String × Nat) → String → Option Nat
  | [], _ => none
  | (n, v) :: rest, d => if n = d then some v else lookupDim rest d

/-- Per-dimension split data resolved by the splitter: the target chunking,
the fragment's `[fragStart, fragStop)` range along the dimension and the
covered destination chunk ordinals `[c0, c1)`. -/
structure DimSplitInfo where
  dim : String
  chunk_size : Nat
  total : Nat
  fragStart : Nat
  fragStop : Nat
  c0 : Nat
  c1 : Nat
  deriving DecidableEq, Repr

/-- Modelled from the spec: the covered destination chunk ordinals of a
fragment range on the uniform target grid, via `array_slice_to_chunk_slice`. -/
def coveredChunks (cs tl s t : Nat) : Option (Nat × Nat) :=
  ChunkAxis.array_slice_to_chunk_slice ⟨uniformChunks cs tl⟩ (s : Int) (t : Int) none

/-- Modelled from the spec: resolve every target dimension, in target-spec
order, to its fragment range (from the fragment's `Index` when the dimension
is present as a concat entry, otherwise the dataset's full extent, as the
repository test `test_split_multidim` pins down) and its covered chunk
ordinals. -/
def resolveDims (index : Index) (dsDims : List (String × Nat)) :
    List (String × Nat × Nat) → Option (List DimSplitInfo)
  | [] => some []
  | (d, cs, tl) :: rest => do
    let sl ← match find_concat_dim index d with
      | some v => some (v.start, v.stop)
      | none => (lookupDim dsDims d).map (fun n => ((0 : Nat), n))
    let cc ← coveredChunks cs tl sl.1 sl.2
    let r ← resolveDims index dsDims rest
    pure (⟨d, cs, tl, sl.1, sl.2, cc.1, cc.2⟩ :: r)

/-- Overlap start of destination chunk `k` with the fragment range. -/
def ovStart (info : DimSplitInfo) (k : Nat) : Nat :=
  max (ChunkAxis.chunkStart ⟨uniformChunks info.chunk_size info.total⟩ k) info.fragStart

/-- Overlap stop of destination chunk `k` with the fragment range. -/
def ovStop (info : DimSplitInfo) (k : Nat) : Nat :=
  min (ChunkAxis.chunkStop ⟨uniformChunks info.chunk_size info.total⟩ k) info.fragStop

/-- Executable strict lexicographic comparison of character lists by code
point — the order Python's `sorted` uses on strings. -/
def strLtb : List Char → List Char → Bool
  | [], [] => false
  | [], _ :: _ => true
  | _ :: _, [] => false
  | a :: as, b :: bs =>
    if a.toNat < b.toNat then true
    else if b.toNat < a.toNat then false
    else strLtb as bs

/-- Lexicographic order on `(dimension name, chunk ordinal)` pairs, the order
Python's `sorted` uses on the composite group key tuples. -/
def keyLE (p q : String × Nat) : Prop :=
  strLtb p.1.data q.1.data = true ∨ (p.1 = q.1 ∧ p.2 ≤ q.2)

instance instDecKeyLE : ∀ p q, Decidable (keyLE p q) := fun p q =>
  inferInstanceAs (Decidable (_ ∨ _))

theorem strLtb_trans : ∀ a b c, strLtb a b = true → strLtb b c = true →
    strLtb a c = true := by
  intro a
  induction a with
  | nil =>
    intro b c hab hbc
    cases b with
    | nil => simp [strLtb] at hab
    | cons y ys =>
      cases c with
      | nil => simp [strLtb] at hbc
      | cons z zs => rfl
  | cons x xs ih =>
    intro b c hab hbc
    cases b with
    | nil => simp [strLtb] at hab
    | cons y ys =>
      cases c with
      | nil => simp [strLtb] at hbc
      | cons z zs =>
        simp only [strLtb] at hab hbc ⊢
        by_cases hxy : x.toNat < y.toNat
        · by_cases hyz : y.toNat < z.toNat
          · rw [if_pos (by omega)]
          · rw [if_neg hyz] at hbc
            by_cases hzy : z.toNat < y.toNat
            · rw [if_pos hzy] at hbc
              exact absurd hbc (by simp)
            · rw [if_neg hzy] at hbc
              rw [if_pos (by omega)]
        · rw [if_neg hxy] at hab
          by_cases hyx : y.toNat < x.toNat
          · rw [if_pos hyx] at hab
            exact absurd hab (by simp)
          · rw [if_neg hyx] at hab
            by_cases hyz : y.toNat < z.toNat
            · rw [if_pos (by omega)]
            · rw [if_neg hyz] at hbc
              by_cases hzy : z.toNat < y.toNat
              · rw [if_pos hzy] at hbc
                exact absurd hbc (by simp)
              · rw [if_neg hzy] at hbc
                rw [if_neg (by omega), if_neg (by omega)]
                exact ih ys zs hab hbc

theorem strLtb_total : ∀ a b, strLtb a b = true ∨ strLtb b a = true ∨ a = b := by
  intro a
  induction a with
  | nil =>
    intro b
    cases b with
    | nil => exact Or.inr (Or.inr rfl)
    | cons y ys => exact Or.inl rfl
  | cons x xs ih =>
    intro b
    cases b with
    | nil => exact Or.inr (Or.inl rfl)
    | cons y ys =>
      by_cases hxy : x.toNat < y.toNat
      · left
        simp only [strLtb]
        rw [if_pos hxy]
      · by_cases hyx : y.toNat < x.toNat
        · right; left
          simp only [strLtb]
          rw [if_pos hyx]
        · have hchar : x = y := by
            have hn : x.toNat = y.toNat := by omega
            have hv : x.val = y.val := by
              have h1 : x.val.toNat = y.val.toNat := hn
              exact UInt32.ext h1
            exact Char.ext hv
          rcases ih ys with h | h | h
          · left
            simp only [strLtb]
            rw [if_neg hxy, if_neg hyx]
            exact h
          · right; left
            simp only [strLtb]
            rw [if_neg hyx, if_neg hxy]
            exact h
          · exact Or.inr (Or.inr (by rw [hchar, h]))

theorem string_eq_of_data_eq (a b : String) (h : a.data = b.data) : a = b := by
  cases a
  cases b
  exact congrArg String.mk (by simpa using h)

instance : IsTotal (String × Nat) keyLE := ⟨by
  intro a b
  rcases strLtb_total a.1.data b.1.data with h | h | h
  · exact Or.inl (Or.inl h)
  · exact Or.inr (Or.inl h)
  · have heq : a.1 = b.1 := string_eq_of_data_eq _ _ h
    rcases Nat.le_total a.2 b.2 with h2 | h2
    · exact Or.inl (Or.inr ⟨heq, h2⟩)
    · exact Or.inr (Or.inr ⟨heq.symm, h2⟩)⟩

instance : IsTrans (String × Nat) keyLE := ⟨by
  intro a b c hab hbc
  rcases hab with h1 | h1 <;> rcases hbc with h2 | h2
  · exact Or.inl (strLtb_trans _ _ _ h1 h2)
  · refine Or.inl ?_
    rw [← h2.1]
    exact h1
  · refine Or.inl ?_
    rw [h1.1]
    exact h2
  · exact Or.inr ⟨h1.1.trans h2.1, le_trans h1.2 h2.2⟩⟩

/-- The emitted composite group key, sorted as Python's `sorted` does
(pinned by the key order of `test_split_multidim`). -/
def sortKeys (l : List (String × Nat)) : List (String × Nat) :=
  List.insertionSort keyLE l

/-- Modelled from the spec: the entries of the original `Index` kept
unchanged in every sub-`Index` — everything except the concat entries of the
dimensions being split. -/
def keptEntries (index : Index) (targets : List (String × Nat × Nat)) : Index :=
  index.filter (fun p =>
    !(p.1.op == CombineOp.concat && targets.any (fun tg => tg.1 == p.1.name)))

/-- One emitted piece: the composite group key, the sub-`Index` (overlap
ranges in global array-index space) and the local selection the external
dataset-slicing collaborator applies (offsets relative to the fragment's own
start). -/
structure SplitPiece where
  key : List (String × Nat)
  index : Index
  localSel : List (String × Nat × Nat)
  deriving DecidableEq, Repr

/-- The piece emitted for one combination of covered chunk ordinals. -/
def pieceFor (index : Index) (targets : List (String × Nat × Nat))
    (info : List DimSplitInfo) (ks : List Nat) : SplitPiece :=
  let paired := info.zip ks
  { key := sortKeys (paired.map (fun pk => (pk.1.dim, pk.2))),
    index := keptEntries index targets ++
      paired.map (fun pk =>
        (⟨pk.1.dim, CombineOp.concat⟩, ⟨0, ovStart pk.1 pk.2, ovStop pk.1 pk.2⟩)),
    localSel := paired.map (fun pk =>
      (pk.1.dim, ovStart pk.1 pk.2 - pk.1.fragStart, ovStop pk.1 pk.2 - pk.1.fragStart)) }

/-- Modelled from the spec: `split_fragment` — resolve every target
dimension, enumerate the Cartesian product of covered destination chunk
ordinals (target-spec order, last dimension varying fastest) and emit one
piece per combination. -/
def split_fragment (index : Index) (dsDims : List (String × Nat))
    (targets : List (String × Nat × Nat)) : Option (List SplitPiece) :=
  (resolveDims index dsDims targets).map (fun info =>
    (Patterns.listProd (info.map (fun r => List.range' r.c0 (r.c1 - r.c0)))).map
      (pieceFor index targets info))

/-- The global `[start, stop)` range a piece's sub-`Index` assigns to a
dimension (`(0, 0)` when the dimension is absent). -/
def dimInterval (ix : Index) (d : String) : Nat × Nat :=
  match find_concat_dim ix d with
  | some v => (v.start, v.stop)
  | none => (0, 0)

/-- The local selection a piece applies to the fragment's data along a
dimension (`(0, 0)` when the dimension is absent). -/
def localInterval (pc : SplitPiece) (d : String) : Nat × Nat :=
  match pc.localSel.find? (fun e => e.1 == d) with
  | some e => (e.2.1, e.2.2)
  | none => (0, 0)

/-- Concatenation checker: `chainIntervals s l = some t` holds exactly when
the intervals of `l`, in order, are nonempty, adjacent and tile `[s, t)` —
no gaps, no overlaps, no duplication. -/
def chainIntervals : Nat → List (Nat × Nat) → Option Nat
  | s, [] => some s
  | s, (a, b) :: rest => if a = s ∧ a < b then chainIntervals b rest else none

end Rechunking

namespace Rechunking

theorem lt_div_succ_mul (a b : Nat) (hb : 0 < b) : a < (a / b + 1) * b := by
  have h1 := Nat.div_add_mod a b
  have h2 := Nat.mod_lt a hb
  have h3 : (a / b + 1) * b = b * (a / b) + b := by ring
  omega

theorem coveredChunks_eq (cs tl s t : Nat) (hcs : 0 < cs) (hst : s < t) (htl : t ≤ tl) :
    coveredChunks cs tl s t = some (s / cs, (t - 1) / cs + 1) := by
  have hlen : (⟨uniformChunks cs tl⟩ : ChunkAxis).len = tl := sum_uniform cs tl hcs
  have hcond : ((none : Option Int) = none ∨ (none : Option Int) = some 1) ∧
      (0 : Int) ≤ (s : Int) ∧ (s : Int) < (t : Int) ∧
      (t : Int) ≤ (((⟨uniformChunks cs tl⟩ : ChunkAxis).len : Nat) : Int) := by
    refine ⟨Or.inl rfl, by positivity, by exact_mod_cast hst, ?_⟩
    rw [hlen]
    exact_mod_cast htl
  have e1 : ((s : Nat) : Int).toNat = s := by simp
  have e2 : ((t : Nat) : Int).toNat - 1 = t - 1 := by simp
  unfold coveredChunks ChunkAxis.array_slice_to_chunk_slice
  rw [if_pos hcond]
  show (match ChunkAxis.searchChunk (uniformChunks cs tl) ((s : Int)).toNat,
        ChunkAxis.searchChunk (uniformChunks cs tl) (((t : Int)).toNat - 1) with
    | some c0, some c1 => some (c0, c1 + 1)
    | _, _ => none) = some (s / cs, (t - 1) / cs + 1)
  rw [e1, e2, searchChunk_uniform cs tl s hcs (by omega),
    searchChunk_uniform cs tl (t - 1) hcs (by omega)]

theorem ovStart_simplify (d : String) (cs tl s t c0 c1 k : Nat) (hcs : 0 < cs)
    (hst : s < t) (htl : t ≤ tl) (hk : k ≤ (t - 1) / cs) :
    ovStart ⟨d, cs, tl, s, t, c0, c1⟩ k = max (k * cs) s := by
  have hk1 : k * cs ≤ (t - 1) / cs * cs := Nat.mul_le_mul_right cs hk
  have hk2 : (t - 1) / cs * cs ≤ t - 1 := Nat.div_mul_le_self _ _
  show max (ChunkAxis.chunkStart ⟨uniformChunks cs tl⟩ k) s = _
  show max ((uniformChunks cs tl).take k).sum s = _
  rw [take_sum_uniform cs tl hcs k]
  omega

theorem ovStop_simplify (d : String) (cs tl s t c0 c1 k : Nat) (hcs : 0 < cs)
    (hst : s < t) (htl : t ≤ tl) :
    ovStop ⟨d, cs, tl, s, t, c0, c1⟩ k = min (min ((k + 1) * cs) tl) t := by
  show min (ChunkAxis.chunkStop ⟨uniformChunks cs tl⟩ k) t = _
  show min ((uniformChunks cs tl).take (k + 1)).sum t = _
  rw [take_sum_uniform cs tl hcs (k + 1)]

theorem ovStop_simplify_mem (d : String) (cs tl s t c0 c1 k : Nat) (hcs : 0 < cs)
    (hst : s < t) (htl : t ≤ tl) (hk : k ≤ (t - 1) / cs) :
    ovStop ⟨d, cs, tl, s, t, c0, c1⟩ k = min ((k + 1) * cs) t := by
  rw [ovStop_simplify d cs tl s t c0 c1 k hcs hst htl]
  omega

theorem listProd_single (xs : List Nat) :
    Patterns.listProd [xs] = xs.map (fun x => [x]) := by
  show xs.flatMap (fun x => [[x]]) = xs.map (fun x => [x])
  induction xs with
  | nil => rfl
  | cons a l ih => simp [List.flatMap_cons, ih]

theorem keptEntries_single (d : String) (v : DimVal) (cs tl : Nat) :
    keptEntries [(⟨d, CombineOp.concat⟩, v)] [(d, cs, tl)] = [] := by
  simp [keptEntries]

theorem split1D (d : String) (p s t cs tl : Nat) (dsDims : List (String × Nat))
    (hcs : 0 < cs) (hst : s < t) (htl : t ≤ tl) :
    split_fragment [(⟨d, CombineOp.concat⟩, ⟨p, s, t⟩)] dsDims [(d, cs, tl)] =
      some ((List.range' (s / cs) ((t - 1) / cs + 1 - s / cs)).map (fun k =>
        ⟨[(d, k)],
         [(⟨d, CombineOp.concat⟩, ⟨0, max (k * cs) s, min ((k + 1) * cs) t⟩)],
         [(d, max (k * cs) s - s, min ((k + 1) * cs) t - s)]⟩)) := by
  have hfind : find_concat_dim [(⟨d, CombineOp.concat⟩, ⟨p, s, t⟩)] d = some ⟨p, s, t⟩ := by
    unfold find_concat_dim
    rw [if_pos ⟨rfl, rfl⟩]
  have hres : resolveDims [(⟨d, CombineOp.concat⟩, ⟨p, s, t⟩)] dsDims [(d, cs, tl)] =
      some [⟨d, cs, tl, s, t, s / cs, (t - 1) / cs + 1⟩] := by
    unfold resolveDims
    rw [hfind]
    show (coveredChunks cs tl s t).bind _ = _
    rw [coveredChunks_eq cs tl s t hcs hst htl]
    rfl
  unfold split_fragment
  rw [hres]
  show some _ = some _
  congr 1
  show (Patterns.listProd [List.range' (s / cs) ((t - 1) / cs + 1 - s / cs)]).map _ = _
  rw [listProd_single, List.map_map]
  refine List.map_congr_left ?_
  intro k hk
  rw [List.mem_range'_1] at hk
  have hkle : k ≤ (t - 1) / cs := by omega
  show pieceFor _ _ _ [k] = _
  unfold pieceFor
  simp only [List.zip_cons_cons, List.zip_nil_right, List.map_cons, List.map_nil]
  rw [keptEntries_single, ovStart_simplify d cs tl s t _ _ k hcs hst htl hkle,
    ovStop_simplify_mem d cs tl s t _ _ k hcs hst htl hkle]
  rfl

end Rechunking

namespace Rechunking

theorem chain_uniform_aux (cs s t : Nat) (hcs : 0 < cs) (hst : s < t) :
    ∀ n k0, k0 + n = (t - 1) / cs + 1 → s / cs ≤ k0 → k0 ≤ (t - 1) / cs →
      chainIntervals (max (k0 * cs) s)
        ((List.range' k0 n).map (fun k => (max (k * cs) s, min ((k + 1) * cs) t))) =
        some t := by
  intro n
  induction n with
  | zero =>
    intro k0 h1 h2 h3
    omega
  | succ m ih =>
    intro k0 h1 h2 h3
    rw [List.range'_succ, List.map_cons]
    show chainIntervals (max (k0 * cs) s)
      ((max (k0 * cs) s, min ((k0 + 1) * cs) t) :: _) = some t
    have hA : s < (k0 + 1) * cs := by
      have h4 : s < (s / cs + 1) * cs := lt_div_succ_mul s cs hcs
      have h5 : (s / cs + 1) * cs ≤ (k0 + 1) * cs := Nat.mul_le_mul_right cs (by omega)
      omega
    have hB : k0 * cs ≤ t - 1 := by
      have h4 : k0 * cs ≤ (t - 1) / cs * cs := Nat.mul_le_mul_right cs h3
      have h5 : (t - 1) / cs * cs ≤ t - 1 := Nat.div_mul_le_self _ _
      omega
    have hrel : (k0 + 1) * cs = k0 * cs + cs := by ring
    unfold chainIntervals
    rw [if_pos ⟨rfl, by omega⟩]
    cases m with
    | zero =>
      have hk0 : k0 = (t - 1) / cs := by omega
      have hC : t ≤ (k0 + 1) * cs := by
        have h4 : t - 1 < ((t - 1) / cs + 1) * cs := lt_div_succ_mul (t - 1) cs hcs
        rw [hk0]
        omega
      rw [show List.range' (k0 + 1) 0 = ([] : List Nat) from rfl]
      show some (min ((k0 + 1) * cs) t) = some t
      congr 1
      omega
    | succ m' =>
      have h3' : k0 + 1 ≤ (t - 1) / cs := by omega
      have hD : (k0 + 1) * cs ≤ t - 1 := by
        have h4 : (k0 + 1) * cs ≤ (t - 1) / cs * cs := Nat.mul_le_mul_right cs h3'
        have h5 : (t - 1) / cs * cs ≤ t - 1 := Nat.div_mul_le_self _ _
        omega
      have hmin : min ((k0 + 1) * cs) t = (k0 + 1) * cs := by omega
      rw [hmin]
      have hih := ih (k0 + 1) (by omega) (by omega) h3'
      have hmax : max ((k0 + 1) * cs) s = (k0 + 1) * cs := by omega
      rw [hmax] at hih
      exact hih

theorem chain_uniform (cs s t : Nat) (hcs : 0 < cs) (hst : s < t) :
    chainIntervals s ((List.range' (s / cs) ((t - 1) / cs + 1 - s / cs)).map
      (fun k => (max (k * cs) s, min ((k + 1) * cs) t))) = some t := by
  have hle : s / cs ≤ (t - 1) / cs := Nat.div_le_div_right (by omega)
  have h := chain_uniform_aux cs s t hcs hst ((t - 1) / cs + 1 - s / cs) (s / cs)
    (by omega) le_rfl hle
  have hmax : max (s / cs * cs) s = s := by
    have := Nat.div_mul_le_self s cs
    omega
  rwa [hmax] at h

theorem chainIntervals_shift (s : Nat) :
    ∀ (l : List (Nat × Nat)) (x : Nat), s ≤ x → (∀ p ∈ l, s ≤ p.1) →
      chainIntervals (x - s) (l.map (fun p => (p.1 - s, p.2 - s))) =
        (chainIntervals x l).map (fun r => r - s) := by
  intro l
  induction l with
  | nil => intro x _ _; rfl
  | cons a rest ih =>
    intro x hx hall
    obtain ⟨a1, a2⟩ := a
    have ha1 : s ≤ a1 := hall (a1, a2) (by simp)
    rw [List.map_cons]
    unfold chainIntervals
    by_cases hc : a1 = x ∧ a1 < a2
    · rw [if_pos hc, if_pos (show a1 - s = x - s ∧ a1 - s < a2 - s by omega)]
      exact ih a2 (by omega) (fun p hp => hall p (by simp [hp]))
    · have hc' : ¬(a1 - s = x - s ∧ a1 - s < a2 - s) := by
        intro hand
        exact hc ⟨by omega, by omega⟩
      rw [if_neg hc, if_neg hc']
      rfl

/-- C1: fragment-splitter round-trip.  For every fragment carrying a concat
range `[s, t)` along a dimension and every target chunk spec over it, the
pieces `split_fragment` emits — exactly one per covered destination chunk, its
sub-`Index` range being precisely the destination chunk's array range
intersected with the fragment — concatenated in array-index order reconstruct
the original fragment exactly: the global ranges tile `[s, t)` and the local
selections tile `[0, t - s)`, with no gaps, no overlaps and no duplication;
in particular the single piece emitted for one destination chunk key is that
chunk's range restricted to the fragment. -/
theorem split_fragment_roundtrip (d : String) (p s t cs tl : Nat)
    (dsDims : List (String × Nat)) (hcs : 0 < cs) (hst : s < t) (htl : t ≤ tl) :
    ∃ pieces,
      split_fragment [(⟨d, CombineOp.concat⟩, ⟨p, s, t⟩)] dsDims [(d, cs, tl)] =
        some pieces ∧
      pieces = (List.range' (s / cs) ((t - 1) / cs + 1 - s / cs)).map (fun k =>
        ⟨[(d, k)],
         [(⟨d, CombineOp.concat⟩, ⟨0, max (k * cs) s, min ((k + 1) * cs) t⟩)],
         [(d, max (k * cs) s - s, min ((k + 1) * cs) t - s)]⟩) ∧
      chainIntervals s (pieces.map (fun pc => dimInterval pc.index d)) = some t ∧
      chainIntervals 0 (pieces.map (fun pc => localInterval pc d)) = some (t - s) ∧
      (pieces.map SplitPiece.key).Nodup ∧
      pieces ≠ [] := by
  have hn : 1 ≤ (t - 1) / cs + 1 - s / cs := by
    have hle : s / cs ≤ (t - 1) / cs := Nat.div_le_div_right (by omega)
    omega
  have hpt : ∀ k : Nat,
      dimInterval ([(⟨d, CombineOp.concat⟩,
        (⟨0, max (k * cs) s, min ((k + 1) * cs) t⟩ : DimVal))] : Index) d =
        (max (k * cs) s, min ((k + 1) * cs) t) := by
    intro k
    unfold dimInterval find_concat_dim
    rw [if_pos ⟨rfl, rfl⟩]
  refine ⟨_, split1D d p s t cs tl dsDims hcs hst htl, rfl, ?_, ?_, ?_, ?_⟩
  · rw [List.map_map]
    show chainIntervals s ((List.range' (s / cs) ((t - 1) / cs + 1 - s / cs)).map
      (fun k => dimInterval
        ([(⟨d, CombineOp.concat⟩,
          (⟨0, max (k * cs) s, min ((k + 1) * cs) t⟩ : DimVal))] : Index) d)) = some t
    rw [List.map_congr_left (fun k _ => hpt k)]
    exact chain_uniform cs s t hcs hst
  · have hptl : ∀ k : Nat,
        localInterval ⟨[(d, k)],
          [(⟨d, CombineOp.concat⟩, ⟨0, max (k * cs) s, min ((k + 1) * cs) t⟩)],
          [(d, max (k * cs) s - s, min ((k + 1) * cs) t - s)]⟩ d =
          (max (k * cs) s - s, min ((k + 1) * cs) t - s) := by
      intro k
      unfold localInterval
      simp [List.find?]
    have hmapeq :
        ((List.range' (s / cs) ((t - 1) / cs + 1 - s / cs)).map (fun k =>
          (⟨[(d, k)],
           [(⟨d, CombineOp.concat⟩, ⟨0, max (k * cs) s, min ((k + 1) * cs) t⟩)],
           [(d, max (k * cs) s - s, min ((k + 1) * cs) t - s)]⟩ : SplitPiece))).map
            (fun pc => localInterval pc d) =
        ((List.range' (s / cs) ((t - 1) / cs + 1 - s / cs)).map (fun k =>
          (max (k * cs) s, min ((k + 1) * cs) t))).map (fun q => (q.1 - s, q.2 - s)) := by
      rw [List.map_map, List.map_map]
      show (List.range' (s / cs) ((t - 1) / cs + 1 - s / cs)).map
        (fun k => localInterval
          (⟨[(d, k)],
            [(⟨d, CombineOp.concat⟩, ⟨0, max (k * cs) s, min ((k + 1) * cs) t⟩)],
            [(d, max (k * cs) s - s, min ((k + 1) * cs) t - s)]⟩ : SplitPiece) d) =
        (List.range' (s / cs) ((t - 1) / cs + 1 - s / cs)).map
          (fun k => (max (k * cs) s - s, min ((k + 1) * cs) t - s))
      exact List.map_congr_left (fun k _ => hptl k)
    rw [hmapeq]
    have hshift := chainIntervals_shift s
      ((List.range' (s / cs) ((t - 1) / cs + 1 - s / cs)).map (fun k =>
        (max (k * cs) s, min ((k + 1) * cs) t))) s le_rfl
      (by
        intro q hq
        obtain ⟨k, _, rfl⟩ := List.mem_map.mp hq
        simp)
    rw [show s - s = 0 from by omega] at hshift
    rw [hshift, chain_uniform cs s t hcs hst]
    rfl
  · rw [List.map_map]
    show ((List.range' (s / cs) ((t - 1) / cs + 1 - s / cs)).map
      (fun k => [(d, k)])).Nodup
    refine List.Nodup.map ?_ ?_
    · intro a b hab
      simpa using hab
    · exact (List.pairwise_lt_range' _ _).imp Nat.ne_of_lt
  · intro hnil
    rw [List.map_eq_nil_iff] at hnil
    have := congrArg List.length hnil
    rw [List.length_range'] at this
    simp at this
    omega

/-- Witness for C1 at the data of `test_split_fragment` with
`time_chunks = 3` and `offset = 5` (fragment `[5, 15)` of 20, 10 items): four
pieces, destination chunks 1–4, global ranges `(5,6) (6,9) (9,12) (12,15)`
tiling `[5, 15)` and local selections `(0,1) (1,4) (4,7) (7,10)` tiling
`[0, 10)`. -/
theorem split_fragment_roundtrip_witness :
    split_fragment [(⟨"time", CombineOp.concat⟩, ⟨0, 5, 15⟩)] [] [("time", 3, 20)] =
      some [⟨[("time", 1)], [(⟨"time", CombineOp.concat⟩, ⟨0, 5, 6⟩)], [("time", 0, 1)]⟩,
            ⟨[("time", 2)], [(⟨"time", CombineOp.concat⟩, ⟨0, 6, 9⟩)], [("time", 1, 4)]⟩,
            ⟨[("time", 3)], [(⟨"time", CombineOp.concat⟩, ⟨0, 9, 12⟩)], [("time", 4, 7)]⟩,
            ⟨[("time", 4)], [(⟨"time", CombineOp.concat⟩, ⟨0, 12, 15⟩)], [("time", 7, 10)]⟩] := by
  obtain ⟨pieces, h1, h2, _⟩ :=
    split_fragment_roundtrip "time" 0 5 15 3 20 [] (by decide) (by decide) (by decide)
  rw [h2] at h1
  exact h1.trans (by decide)

end Rechunking

namespace Rechunking

theorem flatMap_congr {α β : Type} {l : List α} {f g : α → List β}
    (h : ∀ a ∈ l, f a = g a) : l.flatMap f = l.flatMap g := by
  induction l with
  | nil => rfl
  | cons a rest ih =>
    rw [List.flatMap_cons, List.flatMap_cons, h a (by simp),
      ih (fun b hb => h b (by simp [hb]))]

theorem listProd_pair (xs ys : List Nat) :
    Patterns.listProd [xs, ys] = xs.flatMap (fun x => ys.map (fun y => [x, y])) := by
  show xs.flatMap _ = _
  exact flatMap_congr (fun x _ => by rw [listProd_single, List.map_map]; rfl)

theorem find_concat_dim_head (d : String) (v : DimVal) (rest : Index) :
    find_concat_dim ((⟨d, CombineOp.concat⟩, v) :: rest) d = some v := by
  unfold find_concat_dim
  rw [if_pos ⟨rfl, rfl⟩]

theorem find_concat_dim_skip (d1 d : String) (op : CombineOp) (v : DimVal)
    (rest : Index) (hne : d1 ≠ d) :
    find_concat_dim ((⟨d1, op⟩, v) :: rest) d = find_concat_dim rest d := by
  show (if (⟨d1, op⟩ : DimKey).name = d ∧ (⟨d1, op⟩ : DimKey).op = CombineOp.concat
    then some v else find_concat_dim rest d) = find_concat_dim rest d
  rw [if_neg (fun hand => hne hand.1)]

theorem resolveDims_cons_found (index : Index) (dsDims : List (String × Nat))
    (d : String) (cs tl : Nat) (rest : List (String × Nat × Nat)) (v : DimVal)
    (c0 c1 : Nat) (infos : List DimSplitInfo)
    (hf : find_concat_dim index d = some v)
    (hcov : coveredChunks cs tl v.start v.stop = some (c0, c1))
    (hrest : resolveDims index dsDims rest = some infos) :
    resolveDims index dsDims ((d, cs, tl) :: rest) =
      some (⟨d, cs, tl, v.start, v.stop, c0, c1⟩ :: infos) := by
  unfold resolveDims
  rw [hf]
  show (coveredChunks cs tl v.start v.stop).bind _ = _
  rw [hcov]
  show (resolveDims index dsDims rest).bind _ = _
  rw [hrest]
  rfl

theorem resolveDims_cons_missing (index : Index) (dsDims : List (String × Nat))
    (d : String) (cs tl n : Nat) (rest : List (String × Nat × Nat))
    (c0 c1 : Nat) (infos : List DimSplitInfo)
    (hf : find_concat_dim index d = none)
    (hlook : lookupDim dsDims d = some n)
    (hcov : coveredChunks cs tl 0 n = some (c0, c1))
    (hrest : resolveDims index dsDims rest = some infos) :
    resolveDims index dsDims ((d, cs, tl) :: rest) =
      some (⟨d, cs, tl, 0, n, c0, c1⟩ :: infos) := by
  unfold resolveDims
  rw [hf]
  show ((lookupDim dsDims d).map _).bind _ = _
  rw [hlook]
  show (coveredChunks cs tl 0 n).bind _ = _
  rw [hcov]
  show (resolveDims index dsDims rest).bind _ = _
  rw [hrest]
  rfl

theorem keptEntries_pair (d1 d2 : String) (v1 v2 : DimVal) (cs1 tl1 cs2 tl2 : Nat) :
    keptEntries [(⟨d1, CombineOp.concat⟩, v1), (⟨d2, CombineOp.concat⟩, v2)]
      [(d1, cs1, tl1), (d2, cs2, tl2)] = [] := by
  simp [keptEntries]

theorem keptEntries_single_of_pair (d1 d2 : String) (v1 : DimVal) (cs1 tl1 cs2 tl2 : Nat) :
    keptEntries [(⟨d1, CombineOp.concat⟩, v1)] [(d1, cs1, tl1), (d2, cs2, tl2)] = [] := by
  simp [keptEntries]

theorem split2D_present (d1 d2 : String) (p1 p2 s1 t1 s2 t2 cs1 tl1 cs2 tl2 : Nat)
    (dsDims : List (String × Nat)) (hne : d1 ≠ d2)
    (hcs1 : 0 < cs1) (hst1 : s1 < t1) (htl1 : t1 ≤ tl1)
    (hcs2 : 0 < cs2) (hst2 : s2 < t2) (htl2 : t2 ≤ tl2) :
    split_fragment
      [(⟨d1, CombineOp.concat⟩, ⟨p1, s1, t1⟩), (⟨d2, CombineOp.concat⟩, ⟨p2, s2, t2⟩)]
      dsDims [(d1, cs1, tl1), (d2, cs2, tl2)] =
    some ((List.range' (s1 / cs1) ((t1 - 1) / cs1 + 1 - s1 / cs1)).flatMap (fun k1 =>
      (List.range' (s2 / cs2) ((t2 - 1) / cs2 + 1 - s2 / cs2)).map (fun k2 =>
        ⟨sortKeys [(d1, k1), (d2, k2)],
         [(⟨d1, CombineOp.concat⟩, ⟨0, max (k1 * cs1) s1, min ((k1 + 1) * cs1) t1⟩),
          (⟨d2, CombineOp.concat⟩, ⟨0, max (k2 * cs2) s2, min ((k2 + 1) * cs2) t2⟩)],
         [(d1, max (k1 * cs1) s1 - s1, min ((k1 + 1) * cs1) t1 - s1),
          (d2, max (k2 * cs2) s2 - s2, min ((k2 + 1) * cs2) t2 - s2)]⟩))) := by
  have hf1 : find_concat_dim
      [(⟨d1, CombineOp.concat⟩, (⟨p1, s1, t1⟩ : DimVal)),
       (⟨d2, CombineOp.concat⟩, (⟨p2, s2, t2⟩ : DimVal))] d1 = some ⟨p1, s1, t1⟩ :=
    find_concat_dim_head d1 _ _
  have hf2 : find_concat_dim
      [(⟨d1, CombineOp.concat⟩, (⟨p1, s1, t1⟩ : DimVal)),
       (⟨d2, CombineOp.concat⟩, (⟨p2, s2, t2⟩ : DimVal))] d2 = some ⟨p2, s2, t2⟩ := by
    rw [find_concat_dim_skip d1 d2 _ _ _ hne]
    exact find_concat_dim_head d2 _ _
  have hres : resolveDims
      [(⟨d1, CombineOp.concat⟩, ⟨p1, s1, t1⟩), (⟨d2, CombineOp.concat⟩, ⟨p2, s2, t2⟩)]
      dsDims [(d1, cs1, tl1), (d2, cs2, tl2)] =
      some [⟨d1, cs1, tl1, s1, t1, s1 / cs1, (t1 - 1) / cs1 + 1⟩,
            ⟨d2, cs2, tl2, s2, t2, s2 / cs2, (t2 - 1) / cs2 + 1⟩] :=
    resolveDims_cons_found _ dsDims d1 cs1 tl1 _ ⟨p1, s1, t1⟩ _ _ _ hf1
      (coveredChunks_eq cs1 tl1 s1 t1 hcs1 hst1 htl1)
      (resolveDims_cons_found _ dsDims d2 cs2 tl2 [] ⟨p2, s2, t2⟩ _ _ _ hf2
        (coveredChunks_eq cs2 tl2 s2 t2 hcs2 hst2 htl2) rfl)
  unfold split_fragment
  rw [hres]
  show some _ = some _
  congr 1
  show (Patterns.listProd
    [List.range' (s1 / cs1) ((t1 - 1) / cs1 + 1 - s1 / cs1),
     List.range' (s2 / cs2) ((t2 - 1) / cs2 + 1 - s2 / cs2)]).map _ = _
  rw [listProd_pair, List.map_flatMap]
  refine flatMap_congr ?_
  intro k1 hk1
  rw [List.mem_range'_1] at hk1
  have hk1le : k1 ≤ (t1 - 1) / cs1 := by
    have : s1 / cs1 ≤ (t1 - 1) / cs1 := Nat.div_le_div_right (by omega)
    omega
  rw [List.map_map]
  refine List.map_congr_left ?_
  intro k2 hk2
  rw [List.mem_range'_1] at hk2
  have hk2le : k2 ≤ (t2 - 1) / cs2 := by
    have : s2 / cs2 ≤ (t2 - 1) / cs2 := Nat.div_le_div_right (by omega)
    omega
  show pieceFor _ _ _ [k1, k2] = _
  unfold pieceFor
  simp only [List.zip_cons_cons, List.zip_nil_right, List.map_cons, List.map_nil]
  rw [keptEntries_pair,
    ovStart_simplify d1 cs1 tl1 s1 t1 _ _ k1 hcs1 hst1 htl1 hk1le,
    ovStop_simplify_mem d1 cs1 tl1 s1 t1 _ _ k1 hcs1 hst1 htl1 hk1le,
    ovStart_simplify d2 cs2 tl2 s2 t2 _ _ k2 hcs2 hst2 htl2 hk2le,
    ovStop_simplify_mem d2 cs2 tl2 s2 t2 _ _ k2 hcs2 hst2 htl2 hk2le]
  rfl

theorem split2D_missing (d1 d2 : String) (p s t cs1 tl1 cs2 n tl2 : Nat)
    (dsDims : List (String × Nat)) (hne : d1 ≠ d2)
    (hlook : lookupDim dsDims d2 = some n)
    (hcs1 : 0 < cs1) (hst : s < t) (htl1 : t ≤ tl1)
    (hcs2 : 0 < cs2) (hn : 0 < n) (htl2 : n ≤ tl2) :
    split_fragment [(⟨d1, CombineOp.concat⟩, ⟨p, s, t⟩)]
      dsDims [(d1, cs1, tl1), (d2, cs2, tl2)] =
    some ((List.range' (s / cs1) ((t - 1) / cs1 + 1 - s / cs1)).flatMap (fun k1 =>
      (List.range' 0 ((n - 1) / cs2 + 1)).map (fun k2 =>
        ⟨sortKeys [(d1, k1), (d2, k2)],
         [(⟨d1, CombineOp.concat⟩, ⟨0, max (k1 * cs1) s, min ((k1 + 1) * cs1) t⟩),
          (⟨d2, CombineOp.concat⟩, ⟨0, k2 * cs2, min ((k2 + 1) * cs2) n⟩)],
         [(d1, max (k1 * cs1) s - s, min ((k1 + 1) * cs1) t - s),
          (d2, k2 * cs2, min ((k2 + 1) * cs2) n)]⟩))) := by
  have hf1 : find_concat_dim [(⟨d1, CombineOp.concat⟩, (⟨p, s, t⟩ : DimVal))] d1 =
      some ⟨p, s, t⟩ := find_concat_dim_head d1 _ _
  have hf2 : find_concat_dim [(⟨d1, CombineOp.concat⟩, (⟨p, s, t⟩ : DimVal))] d2 = none := by
    rw [find_concat_dim_skip d1 d2 _ _ _ hne]
    rfl
  have hcov2 : coveredChunks cs2 tl2 0 n = some (0, (n - 1) / cs2 + 1) := by
    have h := coveredChunks_eq cs2 tl2 0 n hcs2 hn htl2
    rwa [Nat.zero_div] at h
  have hres : resolveDims [(⟨d1, CombineOp.concat⟩, ⟨p, s, t⟩)]
      dsDims [(d1, cs1, tl1), (d2, cs2, tl2)] =
      some [⟨d1, cs1, tl1, s, t, s / cs1, (t - 1) / cs1 + 1⟩,
            ⟨d2, cs2, tl2, 0, n, 0, (n - 1) / cs2 + 1⟩] :=
    resolveDims_cons_found _ dsDims d1 cs1 tl1 _ ⟨p, s, t⟩ _ _ _ hf1
      (coveredChunks_eq cs1 tl1 s t hcs1 hst htl1)
      (resolveDims_cons_missing _ dsDims d2 cs2 tl2 n [] _ _ _ hf2 hlook hcov2 rfl)
  unfold split_fragment
  rw [hres]
  show some _ = some _
  congr 1
  show (Patterns.listProd
    [List.range' (s / cs1) ((t - 1) / cs1 + 1 - s / cs1),
     List.range' 0 ((n - 1) / cs2 + 1 - 0)]).map _ = _
  rw [listProd_pair, List.map_flatMap, Nat.sub_zero]
  refine flatMap_congr ?_
  intro k1 hk1
  rw [List.mem_range'_1] at hk1
  have hk1le : k1 ≤ (t - 1) / cs1 := by
    have : s / cs1 ≤ (t - 1) / cs1 := Nat.div_le_div_right (by omega)
    omega
  rw [List.map_map]
  refine List.map_congr_left ?_
  intro k2 hk2
  rw [List.mem_range'_1] at hk2
  have hk2le : k2 ≤ (n - 1) / cs2 := by omega
  show pieceFor _ _ _ [k1, k2] = _
  unfold pieceFor
  simp only [List.zip_cons_cons, List.zip_nil_right, List.map_cons, List.map_nil]
  rw [keptEntries_single_of_pair,
    ovStart_simplify d1 cs1 tl1 s t _ _ k1 hcs1 hst htl1 hk1le,
    ovStop_simplify_mem d1 cs1 tl1 s t _ _ k1 hcs1 hst htl1 hk1le,
    ovStart_simplify d2 cs2 tl2 0 n _ _ k2 hcs2 hn htl2 hk2le,
    ovStop_simplify_mem d2 cs2 tl2 0 n _ _ k2 hcs2 hn htl2 hk2le]
  simp

end Rechunking

namespace Rechunking

theorem sortKeys_inj_pair (d1 d2 : String) (hne : d1 ≠ d2) (k1 k2 k1' k2' : Nat)
    (heq : sortKeys [(d1, k1), (d2, k2)] = sortKeys [(d1, k1'), (d2, k2')]) :
    k1 = k1' ∧ k2 = k2' := by
  have h2 : List.Perm (sortKeys [(d1, k1), (d2, k2)]) [(d1, k1'), (d2, k2')] := by
    rw [heq]
    exact List.perm_insertionSort keyLE _
  have hperm : ([(d1, k1), (d2, k2)] : List (String × Nat)).Perm [(d1, k1'), (d2, k2')] :=
    (List.perm_insertionSort keyLE _).symm.trans h2
  constructor
  · have hm : (d1, k1) ∈ [(d1, k1'), (d2, k2')] := hperm.mem_iff.mp (by simp)
    simp only [List.mem_cons, List.mem_singleton, Prod.mk.injEq, List.not_mem_nil,
      or_false] at hm
    rcases hm with ⟨_, h⟩ | ⟨h, _⟩
    · exact h
    · exact absurd h hne
  · have hm : (d2, k2) ∈ [(d1, k1'), (d2, k2')] := hperm.mem_iff.mp (by simp)
    simp only [List.mem_cons, List.mem_singleton, Prod.mk.injEq, List.not_mem_nil,
      or_false] at hm
    rcases hm with ⟨h, _⟩ | ⟨_, h⟩
    · exact absurd h.symm hne
    · exact h

/-- C3 counterexample: the scenario of `test_split_multidim` in miniature —
the fragment's `Index` has only a `time` concat entry, yet the target spec
also covers `lat`.  The claim says `lat` is simply omitted from the Cartesian
product and contributes no entry; instead `split_fragment` treats `lat` as
spanning the dataset's full extent, splits it, and every emitted group key
and sub-`Index` carries `lat` entries. -/
theorem split_missing_dim_counterexample :
    split_fragment [(⟨"time", CombineOp.concat⟩, ⟨0, 0, 2⟩)] [("lat", 4)]
      [("time", 1, 2), ("lat", 2, 4)] =
    some [⟨[("lat", 0), ("time", 0)],
           [(⟨"time", CombineOp.concat⟩, ⟨0, 0, 1⟩), (⟨"lat", CombineOp.concat⟩, ⟨0, 0, 2⟩)],
           [("time", 0, 1), ("lat", 0, 2)]⟩,
          ⟨[("lat", 1), ("time", 0)],
           [(⟨"time", CombineOp.concat⟩, ⟨0, 0, 1⟩), (⟨"lat", CombineOp.concat⟩, ⟨0, 2, 4⟩)],
           [("time", 0, 1), ("lat", 2, 4)]⟩,
          ⟨[("lat", 0), ("time", 1)],
           [(⟨"time", CombineOp.concat⟩, ⟨0, 1, 2⟩), (⟨"lat", CombineOp.concat⟩, ⟨0, 0, 2⟩)],
           [("time", 1, 2), ("lat", 0, 2)]⟩,
          ⟨[("lat", 1), ("time", 1)],
           [(⟨"time", CombineOp.concat⟩, ⟨0, 1, 2⟩), (⟨"lat", CombineOp.concat⟩, ⟨0, 2, 4⟩)],
           [("time", 1, 2), ("lat", 2, 4)]⟩] ∧
    find_concat_dim [(⟨"time", CombineOp.concat⟩, (⟨0, 0, 1⟩ : DimVal)),
      (⟨"lat", CombineOp.concat⟩, (⟨0, 0, 2⟩ : DimVal))] "lat" = some ⟨0, 0, 2⟩ := by
  constructor
  · decide
  · decide

/-- C3 (amended): when a dimension appears in the target spec but has no
concat entry in the fragment's `Index`, `split_fragment` treats the fragment
as spanning that dimension's full extent `[0, n)` (the dataset's size `n`),
splits it like any other dimension — the output has one piece per element of
the full two-dimensional Cartesian product — and every emitted piece's group
key and sub-`Index` carry an entry for that dimension, its sub-range being
the destination chunk's range intersected with `[0, n)`. -/
theorem split_missing_dim_full_span (d1 d2 : String) (p s t cs1 tl1 cs2 n tl2 : Nat)
    (dsDims : List (String × Nat)) (hne : d1 ≠ d2)
    (hlook : lookupDim dsDims d2 = some n)
    (hcs1 : 0 < cs1) (hst : s < t) (htl1 : t ≤ tl1)
    (hcs2 : 0 < cs2) (hn : 0 < n) (htl2 : n ≤ tl2) :
    ∃ pieces,
      split_fragment [(⟨d1, CombineOp.concat⟩, ⟨p, s, t⟩)]
        dsDims [(d1, cs1, tl1), (d2, cs2, tl2)] = some pieces ∧
      pieces.length = ((t - 1) / cs1 + 1 - s / cs1) * ((n - 1) / cs2 + 1) ∧
      (∀ pc ∈ pieces, ∃ k2, k2 ≤ (n - 1) / cs2 ∧ (d2, k2) ∈ pc.key ∧
        find_concat_dim pc.index d2 = some ⟨0, k2 * cs2, min ((k2 + 1) * cs2) n⟩) ∧
      pieces ≠ [] := by
  refine ⟨_, split2D_missing d1 d2 p s t cs1 tl1 cs2 n tl2 dsDims hne hlook
    hcs1 hst htl1 hcs2 hn htl2, ?_, ?_, ?_⟩
  · rw [List.length_flatMap]
    rw [List.map_congr_left (g := fun _ => (n - 1) / cs2 + 1) (fun k1 _ => by simp)]
    rw [List.map_const', List.sum_replicate, smul_eq_mul, List.length_range']
  · intro pc hpc
    obtain ⟨k1, hk1, hpc2⟩ := List.mem_flatMap.mp hpc
    obtain ⟨k2, hk2, rfl⟩ := List.mem_map.mp hpc2
    rw [List.mem_range'_1] at hk2
    refine ⟨k2, by omega, ?_, ?_⟩
    · show (d2, k2) ∈ sortKeys [(d1, k1), (d2, k2)]
      exact (List.perm_insertionSort keyLE _).mem_iff.mpr (by simp)
    · show find_concat_dim
        [(⟨d1, CombineOp.concat⟩, ⟨0, max (k1 * cs1) s, min ((k1 + 1) * cs1) t⟩),
         (⟨d2, CombineOp.concat⟩, ⟨0, k2 * cs2, min ((k2 + 1) * cs2) n⟩)] d2 = _
      rw [find_concat_dim_skip d1 d2 _ _ _ hne]
      exact find_concat_dim_head d2 _ _
  · intro hnil
    have := congrArg List.length hnil
    rw [List.length_flatMap] at this
    rw [List.map_congr_left (g := fun _ => (n - 1) / cs2 + 1) (fun k1 _ => by simp)] at this
    rw [List.map_const', List.sum_replicate, smul_eq_mul, List.length_range'] at this
    simp at this
    have hle : s / cs1 ≤ (t - 1) / cs1 := Nat.div_le_div_right (by omega)
    omega

/-- Witness for C3 at `time` chunks `(2, 4)` over fragment `[0, 3)` and a
missing dimension `lon` of extent 8 with chunks `(4, 8)`: the full
two-dimensional Cartesian product of 2 x 2 pieces is emitted. -/
theorem split_missing_dim_full_span_witness :
    (split_fragment [(⟨"time", CombineOp.concat⟩, ⟨0, 0, 3⟩)] [("lon", 8)]
      [("time", 2, 4), ("lon", 4, 8)]).map List.length = some 4 := by
  obtain ⟨pieces, h1, hlen, -, -⟩ := split_missing_dim_full_span "time" "lon" 0 0 3 2 4 4 8 8
    [("lon", 8)] (by decide) (by decide) (by decide) (by decide) (by decide) (by decide)
    (by decide) (by decide)
  rw [h1]
  show some pieces.length = some 4
  rw [hlen]

end Rechunking

namespace Rechunking

/-- C4 counterexample: a fragment spanning the two concat dimensions `time`
and `lat`, target spec declared in the order `time`, `lat` (the data of
`test_split_multidim`).  The enumeration is row-major over the target-spec
order with `lat` varying fastest, but inside every composite key the pairs
are sorted by dimension name: the first emitted key is
`(("lat", 0), ("time", 0))`, not the claimed target-spec order
`(("time", 0), ("lat", 0))`. -/
theorem split_multidim_key_order_counterexample :
    split_fragment
      [(⟨"time", CombineOp.concat⟩, ⟨0, 0, 2⟩), (⟨"lat", CombineOp.concat⟩, ⟨0, 0, 18⟩)]
      [] [("time", 1, 2), ("lat", 9, 18)] =
    some [⟨[("lat", 0), ("time", 0)],
           [(⟨"time", CombineOp.concat⟩, ⟨0, 0, 1⟩), (⟨"lat", CombineOp.concat⟩, ⟨0, 0, 9⟩)],
           [("time", 0, 1), ("lat", 0, 9)]⟩,
          ⟨[("lat", 1), ("time", 0)],
           [(⟨"time", CombineOp.concat⟩, ⟨0, 0, 1⟩), (⟨"lat", CombineOp.concat⟩, ⟨0, 9, 18⟩)],
           [("time", 0, 1), ("lat", 9, 18)]⟩,
          ⟨[("lat", 0), ("time", 1)],
           [(⟨"time", CombineOp.concat⟩, ⟨0, 1, 2⟩), (⟨"lat", CombineOp.concat⟩, ⟨0, 0, 9⟩)],
           [("time", 1, 2), ("lat", 0, 9)]⟩,
          ⟨[("lat", 1), ("time", 1)],
           [(⟨"time", CombineOp.concat⟩, ⟨0, 1, 2⟩), (⟨"lat", CombineOp.concat⟩, ⟨0, 9, 18⟩)],
           [("time", 1, 2), ("lat", 9, 18)]⟩] ∧
    ([("lat", 0), ("time", 0)] : List (String × Nat)) ≠ [("time", 0), ("lat", 0)] := by
  constructor
  · decide
  · decide

/-- C4 (amended): multi-dimensional splitting over a fragment spanning two
concat dimensions emits exactly one piece per element of the Cartesian
product of the per-dimension covered chunk-ordinal sets, enumerated row-major
over the target-spec dimension order with the last dimension varying fastest;
each composite key holds one `(dim, chunk_ordinal)` pair per split dimension,
but the pairs inside the key are sorted lexicographically by dimension name
(Python's `sorted`), not kept in target-spec/Index order. -/
theorem split_multidim_cartesian (d1 d2 : String) (p1 p2 s1 t1 s2 t2 cs1 tl1 cs2 tl2 : Nat)
    (dsDims : List (String × Nat)) (hne : d1 ≠ d2)
    (hcs1 : 0 < cs1) (hst1 : s1 < t1) (htl1 : t1 ≤ tl1)
    (hcs2 : 0 < cs2) (hst2 : s2 < t2) (htl2 : t2 ≤ tl2) :
    ∃ pieces,
      split_fragment
        [(⟨d1, CombineOp.concat⟩, ⟨p1, s1, t1⟩), (⟨d2, CombineOp.concat⟩, ⟨p2, s2, t2⟩)]
        dsDims [(d1, cs1, tl1), (d2, cs2, tl2)] = some pieces ∧
      pieces = (List.range' (s1 / cs1) ((t1 - 1) / cs1 + 1 - s1 / cs1)).flatMap (fun k1 =>
        (List.range' (s2 / cs2) ((t2 - 1) / cs2 + 1 - s2 / cs2)).map (fun k2 =>
          ⟨sortKeys [(d1, k1), (d2, k2)],
           [(⟨d1, CombineOp.concat⟩, ⟨0, max (k1 * cs1) s1, min ((k1 + 1) * cs1) t1⟩),
            (⟨d2, CombineOp.concat⟩, ⟨0, max (k2 * cs2) s2, min ((k2 + 1) * cs2) t2⟩)],
           [(d1, max (k1 * cs1) s1 - s1, min ((k1 + 1) * cs1) t1 - s1),
            (d2, max (k2 * cs2) s2 - s2, min ((k2 + 1) * cs2) t2 - s2)]⟩)) ∧
      pieces.length =
        ((t1 - 1) / cs1 + 1 - s1 / cs1) * ((t2 - 1) / cs2 + 1 - s2 / cs2) ∧
      (∀ pc ∈ pieces, pc.key.Pairwise keyLE ∧
        ∃ k1 k2, List.Perm pc.key [(d1, k1), (d2, k2)] ∧
          s1 / cs1 ≤ k1 ∧ k1 ≤ (t1 - 1) / cs1 ∧ s2 / cs2 ≤ k2 ∧ k2 ≤ (t2 - 1) / cs2) ∧
      (pieces.map SplitPiece.key).Nodup := by
  have hle1 : s1 / cs1 ≤ (t1 - 1) / cs1 := Nat.div_le_div_right (by omega)
  have hle2 : s2 / cs2 ≤ (t2 - 1) / cs2 := Nat.div_le_div_right (by omega)
  refine ⟨_, split2D_present d1 d2 p1 p2 s1 t1 s2 t2 cs1 tl1 cs2 tl2 dsDims hne
    hcs1 hst1 htl1 hcs2 hst2 htl2, rfl, ?_, ?_, ?_⟩
  · rw [List.length_flatMap]
    rw [List.map_congr_left
      (g := fun _ => (t2 - 1) / cs2 + 1 - s2 / cs2) (fun k1 _ => by simp)]
    rw [List.map_const', List.sum_replicate, smul_eq_mul, List.length_range']
  · intro pc hpc
    obtain ⟨k1, hk1, hpc2⟩ := List.mem_flatMap.mp hpc
    obtain ⟨k2, hk2, rfl⟩ := List.mem_map.mp hpc2
    rw [List.mem_range'_1] at hk1 hk2
    refine ⟨List.sorted_insertionSort keyLE _, k1, k2,
      List.perm_insertionSort keyLE _, by omega, by omega, by omega, by omega⟩
  · rw [List.map_flatMap]
    refine Patterns.pairwise_flatMap _ _ _ ?_ ?_
    · refine ((List.pairwise_lt_range' _ _).imp ?_)
      intro k1 k1' hk b hb b' hb'
      rw [List.map_map] at hb hb'
      obtain ⟨k2, _, rfl⟩ := List.mem_map.mp hb
      obtain ⟨k2', _, rfl⟩ := List.mem_map.mp hb'
      intro heq
      have := (sortKeys_inj_pair d1 d2 hne k1 k2 k1' k2' heq).1
      omega
    · intro k1 _
      rw [List.map_map]
      refine List.pairwise_map.mpr ?_
      refine ((List.pairwise_lt_range' _ _).imp ?_)
      intro k2 k2' hk heq
      have := (sortKeys_inj_pair d1 d2 hne k1 k2 k1 k2' heq).2
      omega

/-- Witness for C4 at `time` chunks `(1, 2)` over fragment `[0, 2)` and
`lon` chunks `(2, 4)` over fragment `[0, 4)`: 2 x 2 pieces. -/
theorem split_multidim_cartesian_witness :
    (split_fragment
      [(⟨"time", CombineOp.concat⟩, ⟨0, 0, 2⟩), (⟨"lon", CombineOp.concat⟩, ⟨0, 0, 4⟩)]
      [] [("time", 1, 2), ("lon", 2, 4)]).map List.length = some 4 := by
  obtain ⟨pieces, h1, -, hlen, -, -⟩ := split_multidim_cartesian "time" "lon" 0 0 0 2 0 4 1 2 2 4
    [] (by decide) (by decide) (by decide) (by decide) (by decide) (by decide) (by decide)
  rw [h1]
  show some pieces.length = some 4
  rw [hlen]

end Rechunking

end PangeoForge








